import Mathlib

/-!
A verification development for the `web-crawler` repository.

The Python sources are shallowly embedded into Lean:

* strings are modelled as `List Char` (`Str`), mirroring Python `str`
  character-by-character for the ASCII inputs handled here;
* `urllib.parse` helpers (`urlparse`, `parse_qs`, `urlencode`,
  `urlunparse`, `quote_plus`/`unquote_plus`) are re-implemented from the
  CPython reference semantics at the byte/ASCII level, since
  `src/storage/duplicate_detector.py` and the frontier depend on them;
* stateful objects (`URLFrontier`, `DuplicateDetector`) become explicit
  state records with pure transition functions; durable-store (Redis)
  calls that may fail are modelled by a `Bool` success flag per call,
  exceptions elsewhere by `Except`;
* wall-clock times (`time.time()`) and the politeness delay are `Rat`.
-/

/- Batteries marks the `Rat` field operations `@[irreducible]`; witnesses
below evaluate frontier calls on concrete rational times, so they are
restored to the default reducibility for this file. -/
attribute [local semireducible] Rat.add Rat.sub Rat.mul

/-- Python `str`, modelled as a list of characters. -/
abbrev Str := List Char

/-- Split a list at the first occurrence of `c`; `none` if `c` is absent.
Models Python `s.split(c, 1)` when it actually splits (and `s.find(c)`). -/
def splitAtFirst (c : Char) : Str → Option (Str × Str)
  | [] => none
  | x :: xs =>
    if x = c then some ([], xs)
    else (splitAtFirst c xs).map (fun p => (x :: p.1, p.2))

/-- Split at the last occurrence of `c` (Python `rfind`-based splitting). -/
def splitAtLast (c : Char) (l : Str) : Option (Str × Str) :=
  (splitAtFirst c l.reverse).map (fun p => (p.2.reverse, p.1.reverse))

/-- Python `s.split(sep)` for a single-character separator: keeps empty
pieces, `split` of the empty string is `[""]`. -/
def splitAll (c : Char) : Str → List Str
  | [] => [[]]
  | x :: xs =>
    match splitAll c xs with
    | [] => [[]]
    | h :: t => if x = c then [] :: h :: t else (x :: h) :: t

/-- Whether `pat` occurs as a contiguous substring of `hay`
(Python `pat in hay` on strings). -/
def isSubstr (pat : Str) : Str → Bool
  | [] => pat.isEmpty
  | c :: rest => (pat == (c :: rest).take pat.length) || isSubstr pat rest

/-- Characters allowed in a URL scheme by CPython `urllib.parse`
(`scheme_chars`): letters, digits, `+`, `-`, `.`. -/
def schemeCharB (c : Char) : Bool :=
  c.isAlpha || c.isDigit || c = '+' || c = '-' || c = '.'

/-- The six components of CPython `urlparse`. -/
structure UrlParts where
  scheme : Str
  netloc : Str
  path : Str
  params : Str
  query : Str
  fragment : Str
deriving DecidableEq

/-- CPython `urlsplit` scheme extraction: if the text before the first `:`
is nonempty, starts with an ASCII letter and consists of scheme
characters, it is the (lowercased) scheme. Returns `(scheme, rest)`,
with `scheme = []` when no scheme is recognized. -/
def splitScheme (url : Str) : Str × Str :=
  match splitAtFirst ':' url with
  | none => ([], url)
  | some (pre, rest) =>
    match pre with
    | [] => ([], url)
    | p :: ps =>
      if p.isAlpha && (p :: ps).all schemeCharB then ((p :: ps).map Char.toLower, rest)
      else ([], url)

/-- A character terminating the netloc in CPython `_splitnetloc`. -/
def netlocDelim (c : Char) : Bool :=
  c = '/' || c = '?' || c = '#'

/-- CPython `_splitnetloc`: if the remainder starts with `//`, the netloc
runs until the first of `/`, `?`, `#`. Returns `(netloc, rest)`. -/
def splitNetloc (url : Str) : Str × Str :=
  if url.take 2 = ['/', '/'] then
    ((url.drop 2).takeWhile (fun c => !netlocDelim c),
     (url.drop 2).dropWhile (fun c => !netlocDelim c))
  else ([], url)

/-- CPython `_splitparams`: split `;params` off the last path segment. -/
def splitParams (path : Str) : Str × Str :=
  if '/' ∈ path then
    match splitAtLast '/' path with
    | none => (path, [])
    | some (a, b) =>
      match splitAtFirst ';' b with
      | none => (path, [])
      | some (b1, b2) => (a ++ '/' :: b1, b2)
  else
    match splitAtFirst ';' path with
    | none => (path, [])
    | some (p1, p2) => (p1, p2)

/-- The component extraction of CPython `urlparse` (composition of
`urlsplit` and the conditional `_splitparams`) on ASCII input, after the
sanitization step and without the netloc bracket checks that can raise
`ValueError` — both are modelled separately by `urlsplitClean` and
`urlparseE` below, which callers that need the raising behaviour go
through.  Order of splits follows `urlsplit`: scheme, then netloc, then
fragment, then query.
First, the `'#' in url` split of `urlsplit`. -/
def splitFragment (s : Str) : Str × Str :=
  match splitAtFirst '#' s with
  | some (a, b) => (a, b)
  | none => (s, [])

/-- The `'?' in url` split of `urlsplit`. -/
def splitQuery (s : Str) : Str × Str :=
  match splitAtFirst '?' s with
  | some (a, b) => (a, b)
  | none => (s, [])

/-- `urllib.parse.uses_params`: the schemes for which `urlparse` splits
`;params` off the path (the empty scheme among them). -/
def usesParams : List Str :=
  (["", "ftp", "hdl", "prospero", "http", "imap", "https", "shttp", "rtsp",
    "rtsps", "rtspu", "sip", "sips", "mms", "sftp", "tel"] :
    List String).map String.toList

/-- The conditional `_splitparams` call of `urlparse` (only for a scheme
in `uses_params`, and only when `;` occurs in the remaining url). -/
def splitParamsIf (scheme s : Str) : Str × Str :=
  if scheme ∈ usesParams ∧ ';' ∈ s then splitParams s else (s, [])

def urlparseChars (url : Str) : UrlParts :=
  let sr := splitScheme url
  let nl := splitNetloc sr.2
  let fr := splitFragment nl.2
  let qu := splitQuery fr.1
  let pp := splitParamsIf sr.1 qu.1
  { scheme := sr.1, netloc := nl.1, path := pp.1,
    params := pp.2, query := qu.2, fragment := fr.2 }

/-- `urllib.parse.uses_netloc`: the schemes for which `urlunsplit`
re-creates a `//` even when the netloc is empty. -/
def usesNetloc : List Str :=
  (["", "ftp", "http", "gopher", "nntp", "telnet", "imap", "wais", "file",
    "mms", "https", "shttp", "snews", "prospero", "rtsp", "rtsps", "rtspu",
    "rsync", "svn", "svn+ssh", "sftp", "nfs", "git", "git+ssh", "ws",
    "wss"] : List String).map String.toList

/-- CPython `urlunsplit` applied to `(scheme, netloc, url, query, fragment)`. -/
def urlunsplitChars (scheme netloc url query fragment : Str) : Str :=
  let u1 := if netloc ≠ [] ∨
      (scheme ≠ [] ∧ scheme ∈ usesNetloc ∧ url.take 2 ≠ ['/', '/']) then
      '/' :: '/' :: (netloc ++ (if url ≠ [] ∧ url.take 1 ≠ ['/'] then '/' :: url else url))
    else url
  let u2 := if scheme ≠ [] then scheme ++ ':' :: u1 else u1
  let u3 := if query ≠ [] then u2 ++ '?' :: query else u2
  if fragment ≠ [] then u3 ++ '#' :: fragment else u3

/-- CPython `urlunparse`: re-attach `;params` to the path, then `urlunsplit`. -/
def urlunparseChars (p : UrlParts) : Str :=
  let u := if p.params ≠ [] then p.path ++ ';' :: p.params else p.path
  urlunsplitChars p.scheme p.netloc u p.query p.fragment

/-- Hex digit value (both cases), as accepted by CPython `unquote`. -/
def hexVal (c : Char) : Option Nat :=
  if c.isDigit then some (c.toNat - '0'.toNat)
  else if 'a' ≤ c ∧ c ≤ 'f' then some (c.toNat - 'a'.toNat + 10)
  else if 'A' ≤ c ∧ c ≤ 'F' then some (c.toNat - 'A'.toNat + 10)
  else none

/-- CPython `unquote` restricted to single-byte (ASCII) escapes: each
valid `%XY` pair becomes the character with that code; invalid escapes
are kept verbatim. (CPython additionally recombines multi-byte UTF-8
escape runs; the inputs in this development are ASCII.) -/
def unquoteChars : Str → Str
  | [] => []
  | '%' :: h1 :: h2 :: rest =>
    match hexVal h1, hexVal h2 with
    | some a, some b => Char.ofNat (16 * a + b) :: unquoteChars rest
    | _, _ => '%' :: unquoteChars (h1 :: h2 :: rest)
  | c :: rest => c :: unquoteChars rest

/-- CPython `unquote_plus`: `+` becomes a space, then percent-decoding. -/
def unquotePlusChars (s : Str) : Str :=
  unquoteChars (s.map (fun c => if c = '+' then ' ' else c))

/-- CPython `_ALWAYS_SAFE`: characters never percent-encoded by `quote`. -/
def alwaysSafeChar (c : Char) : Bool :=
  c.isAlpha || c.isDigit || c = '_' || c = '.' || c = '-' || c = '~'

/-- Uppercase hex digit, as produced by CPython `quote`. -/
def hexDigitUpper (n : Nat) : Char :=
  if n < 10 then Char.ofNat ('0'.toNat + n) else Char.ofNat ('A'.toNat + n - 10)

/-- CPython `quote_plus` with `safe=''` on ASCII text: safe characters kept,
space becomes `+`, anything else becomes an uppercase `%XY` escape of its
character code (single-byte model of the UTF-8 encoding step). -/
def quotePlusChars : Str → Str
  | [] => []
  | c :: rest =>
    (if alwaysSafeChar c then [c]
     else if c = ' ' then ['+']
     else ['%', hexDigitUpper (c.toNat / 16), hexDigitUpper (c.toNat % 16)]) ++
    quotePlusChars rest

/-- One `name=value` piece of a query string, per CPython `parse_qsl` with
`keep_blank_values=False`, `strict_parsing=False`: empty pieces, pieces
without `=` and pieces with an empty value are dropped; names and values
are `unquote_plus`-decoded. -/
def parseQslPiece (piece : Str) : Option (Str × Str) :=
  if piece = [] then none
  else
    match splitAtFirst '=' piece with
    | none => none
    | some (n, v) =>
      if v ≠ [] then some (unquotePlusChars n, unquotePlusChars v) else none

/-- CPython `parse_qsl(qs, keep_blank_values=False)`. -/
def parseQsl (qs : Str) : List (Str × Str) :=
  (splitAll '&' qs).filterMap parseQslPiece

/-- Append `v` to the entry of key `k` (first occurrence), or add a new
`(k, [v])` entry at the end: the dict-building step of CPython `parse_qs`. -/
def appendAtKey (k : Str) (v : Str) : List (Str × List Str) → List (Str × List Str)
  | [] => [(k, [v])]
  | (k1, vs) :: rest =>
    if k1 = k then (k1, vs ++ [v]) :: rest else (k1, vs) :: appendAtKey k v rest

/-- CPython `parse_qs(qs, keep_blank_values=False)`: an insertion-ordered
dict from names to the list of their values. -/
def parseQs (qs : Str) : List (Str × List Str) :=
  (parseQsl qs).foldl (fun d kv => appendAtKey kv.1 kv.2 d) []

/-- Lexicographic strict order on `Str` by character code
(Python string `<`). -/
def strLtB : Str → Str → Bool
  | [], [] => false
  | [], _ :: _ => true
  | _ :: _, [] => false
  | a :: as_, b :: bs =>
    if a.toNat < b.toNat then true
    else if b.toNat < a.toNat then false
    else strLtB as_ bs

/-- Total preorder used to sort query items by name (Python `sorted` on
tuples whose first components — the dict keys — are distinct). -/
def strLeB (a b : Str) : Bool :=
  !(strLtB b a)

/-- The sort order of Python `sorted(d.items())` for a dict with
(necessarily) distinct keys: tuple comparison never reaches the second
component. -/
def pairLe (a b : Str × List Str) : Prop :=
  strLeB a.1 b.1 = true

instance : DecidableRel pairLe := fun a b => by
  unfold pairLe
  infer_instance

/-- Python `sorted(d.items())` for a dict with (necessarily) distinct keys:
a stable sort by key. Python `list.sort`/`sorted` is a stable sort, so any
stable sorting algorithm with the same order is extensionally identical;
insertion sort is used here. -/
def sortQueryPairs (d : List (Str × List Str)) : List (Str × List Str) :=
  d.insertionSort pairLe

/-- The tracking query-parameter names removed by
`DuplicateDetector._normalize_url`. -/
def trackingParams : List Str :=
  (["utm_source", "utm_medium", "utm_campaign", "utm_term", "utm_content",
    "fbclid", "gclid", "ref", "source", "campaign"] : List String).map String.toList

/-- The dict comprehension filtering out tracking parameters. -/
def filterTracking (d : List (Str × List Str)) : List (Str × List Str) :=
  d.filter (fun kv => !(decide (kv.1 ∈ trackingParams)))

/-- The `k=v` pieces produced by CPython `urlencode(seq, doseq=True)`
with the default `quote_via=quote_plus`. -/
def encodePairs : List (Str × List Str) → List Str
  | [] => []
  | (k, vs) :: rest =>
    vs.map (fun v => quotePlusChars k ++ '=' :: quotePlusChars v) ++ encodePairs rest

/-- `'&'.join(pieces)`. -/
def joinAmp : List Str → Str
  | [] => []
  | [x] => x
  | x :: y :: t => x ++ '&' :: joinAmp (y :: t)

/-- The query rewrite of `DuplicateDetector._normalize_url`: when the query
is nonempty, `urlencode(sorted(filtered(parse_qs(query)).items()), doseq=True)`,
else the empty string. -/
def normQueryChars (q : Str) : Str :=
  if q ≠ [] then joinAmp (encodePairs (sortQueryPairs (filterTracking (parseQs q))))
  else []

/-- The path rewrite of `DuplicateDetector._normalize_url`: remove one
trailing slash unless the path has length ≤ 1. -/
def trimSlash (p : Str) : Str :=
  if p.length > 1 ∧ p.getLast? = some '/' then p.dropLast else p

/-! CPython `urlsplit` sanitizes its input and can raise `ValueError` on a
netloc with brackets.  `_normalize_url` reaches that raise (for example on
an unbalanced `[`), and its `except` path then returns `url.lower()`
unchanged, so the parse is modelled as a fallible function below. -/

/-- The WHATWG C0-control-or-space characters stripped from the front of
the URL by CPython `urlsplit` (`_WHATWG_C0_CONTROL_OR_SPACE`). -/
def whatwgC0OrSpace (c : Char) : Bool :=
  decide (c.toNat ≤ 32)

/-- The sanitization at the top of CPython `urlsplit`: strip leading
C0-control/space characters, then delete every tab, CR and LF
(`_UNSAFE_URL_BYTES_TO_REMOVE`). -/
def urlsplitClean (l : Str) : Str :=
  (l.dropWhile whatwgC0OrSpace).filter
    (fun c => !(c == '\t' || c == '\r' || c == '\n'))

/-- A hexadecimal digit (`ipaddress._HEX_DIGITS`). -/
def hexDigitB (c : Char) : Bool :=
  c.isDigit || ('a' ≤ c && c ≤ 'f') || ('A' ≤ c && c ≤ 'F')

/-- Decimal digit string to number, for the octet range check. -/
def digitsToNat (s : Str) : Nat :=
  s.foldl (fun a c => 10 * a + (c.toNat - 48)) 0

/-- `ipaddress._BaseV4._parse_octet` succeeds: nonempty, decimal digits
only, at most three characters, no leading zero (except `"0"` itself),
value at most 255. -/
def ipv4OctetOk (s : Str) : Bool :=
  !s.isEmpty && s.all Char.isDigit && decide (s.length ≤ 3) &&
  !(decide (1 < s.length) && decide (s.take 1 = ['0'])) &&
  decide (digitsToNat s ≤ 255)

/-- `ipaddress._BaseV4._ip_int_from_string` succeeds: exactly four valid
octets. -/
def ipv4Ok (s : Str) : Bool :=
  match splitAll '.' s with
  | [a, b, c, d] => ipv4OctetOk a && ipv4OctetOk b && ipv4OctetOk c && ipv4OctetOk d
  | _ => false

/-- `ipaddress._BaseV6._parse_hextet` succeeds: nonempty (the empty string
fails `int(s, 16)`), hex digits only, at most four of them. -/
def hextetOk (s : Str) : Bool :=
  !s.isEmpty && s.all hexDigitB && decide (s.length ≤ 4)

/-- The part-list validation of `ipaddress._BaseV6._ip_int_from_string`
once an embedded IPv4 suffix (if any) has been replaced by two hextets:
at most 9 parts; at most one empty interior part (the `::`); an empty
first or last part only adjacent to the `::`; at least one zero group
actually skipped; all used parts valid hextets. -/
def ipv6PartsOk (parts : List Str) : Bool :=
  decide (parts.length ≤ 9) &&
  match (List.range parts.length).filter
      (fun i => decide (1 ≤ i) && decide (i + 1 < parts.length) &&
        (parts.getD i []).isEmpty) with
  | [] =>
    decide (parts.length = 8) && !(parts.getD 0 []).isEmpty &&
    !(parts.getD (parts.length - 1) []).isEmpty && parts.all hextetOk
  | [si] =>
    let n := parts.length
    let hi := if (parts.getD 0 []).isEmpty then si - 1 else si
    let lo := if (parts.getD (n - 1) []).isEmpty then n - si - 2 else n - si - 1
    (!(parts.getD 0 []).isEmpty || decide (si = 1)) &&
    (!(parts.getD (n - 1) []).isEmpty || decide (si = n - 2)) &&
    decide (hi + lo ≤ 7) &&
    (parts.take hi).all hextetOk && (parts.drop (n - lo)).all hextetOk
  | _ => false

/-- `ipaddress._BaseV6._ip_int_from_string` succeeds. -/
def ipv6AddrOk (s : Str) : Bool :=
  !s.isEmpty &&
  (let parts := splitAll ':' s
   decide (3 ≤ parts.length) &&
   (match parts.getLast? with
    | none => false
    | some last =>
      if '.' ∈ last then
        ipv4Ok last && ipv6PartsOk (parts.dropLast ++ [['0'], ['0']])
      else ipv6PartsOk parts))

/-- `IPv6Address.__init__`: split an optional nonempty `%scope` suffix
(which may not itself contain `%`), then validate the address part. -/
def ipv6Ok (s : Str) : Bool :=
  match splitAtFirst '%' s with
  | none => ipv6AddrOk s
  | some (addr, scope) => !scope.isEmpty && !decide ('%' ∈ scope) && ipv6AddrOk addr

/-- The IPvFuture shape accepted by `urllib.parse._check_bracketed_host`:
a lowercase `v`, one or more hex digits, a dot, then at least one more
character. -/
def ipvFutureOk (s : Str) : Bool :=
  match s with
  | 'v' :: rest =>
    !(rest.takeWhile hexDigitB).isEmpty &&
    (match rest.dropWhile hexDigitB with
     | '.' :: tail => !tail.isEmpty
     | _ => false)
  | _ => false

/-- `urllib.parse._check_bracketed_host` succeeds: an IPvFuture literal or
a (possibly scoped) IPv6 address; a valid IPv4 address, although accepted
by `ip_address`, is rejected with "cannot be in brackets". -/
def bracketedHostOk (s : Str) : Bool :=
  match s with
  | 'v' :: _ => ipvFutureOk s
  | _ => ipv6Ok s

/-- `netloc.partition('[')[2].partition(']')[0]`. -/
def bracketedHost (netloc : Str) : Str :=
  match splitAtFirst '[' netloc with
  | none => []
  | some (_, after) =>
    match splitAtFirst ']' after with
    | none => after
    | some (inner, _) => inner

/-- The netloc conditions under which CPython `urlsplit` raises
`ValueError`: a bracket without its partner ("Invalid IPv6 URL"), or a
bracketed host that is neither an IPv6 address nor an IPvFuture literal
(`_check_bracketed_host`). -/
def invalidIpv6Netloc (netloc : Str) : Bool :=
  (decide ('[' ∈ netloc) && !decide (']' ∈ netloc)) ||
  (decide (']' ∈ netloc) && !decide ('[' ∈ netloc)) ||
  (decide ('[' ∈ netloc) && decide (']' ∈ netloc) &&
    !bracketedHostOk (bracketedHost netloc))

/-- CPython `urlparse` on arbitrary ASCII input: sanitize as `urlsplit`
does, raise (`.error`) when the netloc fails the bracket checks, and
parse otherwise.  (`_checknetloc` never raises on ASCII input.) -/
def urlparseE (url : Str) : Except Unit UrlParts :=
  if invalidIpv6Netloc (splitNetloc (splitScheme (urlsplitClean url)).2).1 then
    .error ()
  else .ok (urlparseChars (urlsplitClean url))

/-- `DuplicateDetector._normalize_url` on character lists: lowercase the
whole URL and parse; if `urlparse` raises, the `except` path returns the
lowercased URL unchanged; otherwise filter and sort the query, trim one
trailing slash, drop the fragment and reassemble. -/
def normalizeUrlChars (url : Str) : Str :=
  match urlparseE (url.map Char.toLower) with
  | .error _ => url.map Char.toLower
  | .ok parsed =>
    urlunparseChars
      { scheme := parsed.scheme, netloc := parsed.netloc,
        path := trimSlash parsed.path, params := parsed.params,
        query := normQueryChars parsed.query, fragment := [] }

/-- `DuplicateDetector._normalize_url` on Lean strings. -/
def normalize_url (url : String) : String :=
  (normalizeUrlChars url.toList).asString

/-- `URLFrontier._get_domain`: `urlparse(url).netloc.lower()`. -/
def get_domain (url : String) : String :=
  ((urlparseChars url.toList).netloc.map Char.toLower).asString

/-- `RobotsChecker._get_domain`: the `scheme://netloc` origin string. -/
def robots_origin (url : String) : String :=
  let p := urlparseChars url.toList
  (p.scheme ++ ':' :: '/' :: '/' :: p.netloc).asString

/-! ## URL frontier (`src/crawler/url_frontier.py`) -/

/-- `URLPriority` enum. -/
inductive URLPriority where
  | LOW
  | NORMAL
  | HIGH
  | CRITICAL
deriving DecidableEq

/-- The `.value` of each `URLPriority` member. -/
def URLPriority.value : URLPriority → Nat
  | .LOW => 1
  | .NORMAL => 2
  | .HIGH => 3
  | .CRITICAL => 4

/-- `URLTask` dataclass. `discovered_time` defaults to the creation time in
Python; here it is an explicit field of no behavioural significance. -/
structure URLTask where
  url : String
  depth : Nat
  priority : URLPriority := .NORMAL
  parent_url : Option String := none
  discovered_time : Rat := 0
  retry_count : Nat := 0
deriving DecidableEq

/-- Lookup in an insertion-ordered association list (Python dict access;
also `dict.get`). -/
def lookupA (k : String) : List (String × β) → Option β
  | [] => none
  | (k1, v) :: rest => if k1 = k then some v else lookupA k rest

/-- `d[k] = v` on an insertion-ordered association list: replace the value
at the first occurrence of `k`, else append a new entry. -/
def setA (k : String) (v : β) : List (String × β) → List (String × β)
  | [] => [(k, v)]
  | (k1, v1) :: rest => if k1 = k then (k, v) :: rest else (k1, v1) :: setA k v rest

/-- `defaultdict(deque)` append: `d[k].append(t)` creates the queue when
missing (new keys appear at the end, per dict insertion order). -/
def appendQueue (k : String) (t : URLTask) : List (String × List URLTask) → List (String × List URLTask)
  | [] => [(k, [t])]
  | (k1, q) :: rest =>
    if k1 = k then (k1, q ++ [t]) :: rest else (k1, q) :: appendQueue k t rest

/-- `set.add`: membership-preserving insert. -/
def insertSet (u : String) (s : List String) : List String :=
  if u ∈ s then s else s ++ [u]

/-- Remove the first element equal to `t` (Redis `LREM key 1 value`, with
the JSON serialization of tasks being injective). -/
def removeFirstEq (t : URLTask) : List URLTask → List URLTask
  | [] => []
  | x :: xs => if x = t then xs else x :: removeFirstEq t xs

/-- The in-memory state of a `URLFrontier` object together with the durable
(Redis) mirror it maintains.  `politeness_delay` is the constructor
argument; `redis_*` fields model the contents of the
`crawler:domain:<host>` lists and the `crawler:processed_urls` set. -/
structure FrontierState where
  politeness_delay : Rat
  domain_queues : List (String × List URLTask)
  domain_last_access : List (String × Rat)
  processed_urls : List String
  redis_domain_lists : List (String × List URLTask)
  redis_processed : List String
deriving DecidableEq

/-- A frontier with no queued, processed or durable state. -/
def FrontierState.empty (delay : Rat) : FrontierState :=
  { politeness_delay := delay, domain_queues := [], domain_last_access := [],
    processed_urls := [], redis_domain_lists := [], redis_processed := [] }

/-- `URLFrontier.add_url`.  `redisOk` tells whether the `rpush` to the
durable list succeeds; on failure the exception is caught, the in-memory
append stays, and the function returns `False`. -/
def add_url (s : FrontierState) (task : URLTask) (redisOk : Bool) : Bool × FrontierState :=
  if task.url ∈ s.processed_urls then (false, s)
  else
    let dom := get_domain task.url
    let s1 := { s with domain_queues := appendQueue dom task s.domain_queues }
    if redisOk then
      (true, { s1 with redis_domain_lists := appendQueue dom task s1.redis_domain_lists })
    else
      (false, s1)

/-- `URLFrontier.mark_processed`.  `redisOk` tells whether the `sadd`
succeeds; on failure the exception is caught and only the in-memory set
is updated. -/
def mark_processed (s : FrontierState) (url : String) (redisOk : Bool) : FrontierState :=
  let s1 := { s with processed_urls := insertSet url s.processed_urls }
  if redisOk then { s1 with redis_processed := insertSet url s1.redis_processed } else s1

/-- `URLFrontier.mark_failed`: retry with incremented counter and LOW
priority while `retry_count < max_retries`, else mark the URL processed. -/
def mark_failed (s : FrontierState) (task : URLTask) (max_retries : Nat) (redisOk : Bool) :
    Bool × FrontierState :=
  if task.retry_count < max_retries then
    let t1 := { task with retry_count := task.retry_count + 1, priority := URLPriority.LOW }
    (true, (add_url s t1 redisOk).2)
  else
    (false, mark_processed s task.url redisOk)

/-- Python `max(queue, key=lambda t: t.priority.value)`: the first task of
maximal priority value. -/
def maxTask : List URLTask → Option URLTask
  | [] => none
  | t :: ts =>
    match maxTask ts with
    | none => some t
    | some m => if m.priority.value > t.priority.value then some m else some t

/-- The `available_domains` list built by `get_next_url`: for each domain
with a nonempty queue whose cooldown has elapsed, the triple
`(domain, highest-priority task, time since last access)`. -/
def availableDomains (s : FrontierState) (now : Rat) : List (String × URLTask × Rat) :=
  s.domain_queues.filterMap (fun e =>
    if e.2 = [] then none
    else if s.politeness_delay ≤ now - ((lookupA e.1 s.domain_last_access).getD 0) then
      (maxTask e.2).map (fun t => (e.1, t, now - ((lookupA e.1 s.domain_last_access).getD 0)))
    else none)

/-- The (ascending) order on sort keys `(priority.value, time_since_access)`
corresponding to Python tuple comparison. -/
def availKeyLe (x y : String × URLTask × Rat) : Prop :=
  x.2.1.priority.value < y.2.1.priority.value ∨
    (x.2.1.priority.value = y.2.1.priority.value ∧ x.2.2 ≤ y.2.2)

instance : DecidableRel availKeyLe := fun x y => by
  unfold availKeyLe
  infer_instance

/-- The converse relation: `x`'s key is at least `y`'s. -/
def availGe (x y : String × URLTask × Rat) : Prop :=
  availKeyLe y x

instance : DecidableRel availGe := fun x y => by
  unfold availGe
  infer_instance

/-- `list.sort(key=..., reverse=True)` is a stable descending sort; it
equals stable insertion sort with the relation "my key is ≥ yours". -/
def sortAvail (l : List (String × URLTask × Rat)) : List (String × URLTask × Rat) :=
  l.insertionSort availGe

/-- The scan of `get_next_url` that finds the first task of strictly
maximal priority value and its index (`best_task`, `best_index`). -/
def pickBestAux : List URLTask → Nat → Option (URLTask × Nat) → Option (URLTask × Nat)
  | [], _, acc => acc
  | t :: ts, i, acc =>
    pickBestAux ts (i + 1)
      (match acc with
       | none => some (t, i)
       | some (b, j) => if t.priority.value > b.priority.value then some (t, i) else some (b, j))

/-- `best_task` and `best_index` over a whole queue. -/
def pickBest (q : List URLTask) : Option (URLTask × Nat) :=
  pickBestAux q 0 none

/-- `URLFrontier.get_next_url` at wall time `now`.  `redisOk` tells whether
the durable `lrem` succeeds (on failure the exception is caught and only
the in-memory removal remains). -/
def get_next_url (s : FrontierState) (now : Rat) (redisOk : Bool) :
    Option URLTask × FrontierState :=
  match (sortAvail (availableDomains s now)).head? with
  | none => (none, s)
  | some sel =>
    match pickBest ((lookupA sel.1 s.domain_queues).getD []) with
    | none => (none, s)
    | some (best, idx) =>
      (some best,
       { s with
         domain_queues :=
           setA sel.1 (((lookupA sel.1 s.domain_queues).getD []).eraseIdx idx) s.domain_queues,
         domain_last_access := setA sel.1 now s.domain_last_access,
         redis_domain_lists :=
           if redisOk then
             setA sel.1 (removeFirstEq best ((lookupA sel.1 s.redis_domain_lists).getD []))
               s.redis_domain_lists
           else s.redis_domain_lists })

/-- A sequence of `get_next_url` calls, each with its wall time and durable
success flag; returns the list of results and the final state. -/
def run_calls (s : FrontierState) : List (Rat × Bool) → List (Option URLTask) × FrontierState
  | [] => ([], s)
  | (t, ok) :: rest =>
    let r := get_next_url s t ok
    let rr := run_calls r.2 rest
    (r.1 :: rr.1, rr.2)

/-! ## Fetcher (`src/crawler/fetcher.py`) -/

/-- `FetchResult` dataclass. `status_code = 0` marks transport failures. -/
structure FetchResult where
  url : String
  status_code : Nat
  content : Option String := none
  headers : Option (List (String × String)) := none
  error : Option String := none
  fetch_time : Rat := 0
  content_type : Option String := none
  encoding : Option String := none
deriving DecidableEq

/-- `WebFetcher._is_text_content`: substring test of the content type
against the whitelist of text-based types. -/
def is_text_content (content_type : String) : Bool :=
  (["text/html", "text/plain", "text/xml", "application/xml",
    "application/xhtml+xml", "application/json", "application/ld+json"] : List String).any
    (fun t => isSubstr t.toList content_type.toList)

/-- `10 * 1024 * 1024`, the `max_size` default of `_read_content_safely`. -/
def max_size : Nat := 10 * 1024 * 1024

/-- The chunked read loop of `_read_content_safely`: accumulate chunks,
returning `none` as soon as the accumulated byte count exceeds
`max_size`. -/
def readChunks : List (List Nat) → List Nat → Option (List Nat)
  | [], acc => some acc
  | ch :: rest, acc =>
    let acc1 := acc ++ ch
    if acc1.length > max_size then none else readChunks rest acc1

/-- `WebFetcher._read_content_safely`.  The `content-length` header is
modelled by its parsed numeric value when present (a present non-numeric
header makes `int()` raise, which the enclosing `except` turns into
`None` as well).  `decode` models the charset-fallback decoding chain,
which is total because its last resort ignores errors. -/
def read_content_safely (decode : List Nat → String) (content_length : Option Nat)
    (chunks : List (List Nat)) : Option String :=
  match content_length with
  | some n => if n > max_size then none else (readChunks chunks []).map decode
  | none => (readChunks chunks []).map decode

/-- A Python exception signal. -/
inductive PyExn where
  | attributeError (msg : String)
deriving DecidableEq

/-- Modelled from the source's call target: `urllib.robotparser.RobotFileParser`
has methods `set_url`, `read`, `parse`, `can_fetch`, … but **no** method
`read_robots_txt`; the call `rp.read_robots_txt(...)` in
`RobotsChecker.can_fetch` therefore raises `AttributeError` for every
argument. -/
def read_robots_txt (robots_content : String) : Except PyExn Unit :=
  .error (.attributeError "RobotFileParser object has no attribute")

/-- The observable outcome of the `session.get(robots_url)` call inside
`RobotsChecker.can_fetch`: either the request itself raises, or it yields
a status code and a body. -/
inductive RobotsResponse where
  | requestError (msg : String)
  | response (status : Nat) (body : String)
deriving DecidableEq

/-- `RobotsChecker.can_fetch` for an origin not yet cached.  The cache is
in fact never populated: the cache-write lines sit after the
`read_robots_txt` call inside the same `try`, and that call raises on
every path, so every call to `can_fetch` takes this fresh path.
`ruleAllows` models what
`rp.can_fetch(user_agent, url)` would answer had a parser been built; it
sits in the dead branch after `read_robots_txt`.  Every exception path
returns `True` (allow by default). -/
def can_fetch_fresh (url : String) (resp : RobotsResponse)
    (ruleAllows : String → Bool) : Bool :=
  match resp with
  | .requestError _ => true
  | .response status body =>
    match (if status = 200 then read_robots_txt body else read_robots_txt "") with
    | .ok _ => ruleAllows url
    | .error _ => true

/-- The inputs of a single `WebFetcher.fetch` call whose robots gate (if
any) has passed: the outcome of `session.get(url)`. -/
inductive HttpOutcome where
  | timeout
  | clientError (msg : String)
  | response (status : Nat) (content_type : String)
      (content_length : Option Nat) (chunks : List (List Nat))
deriving DecidableEq

/-- `WebFetcher.fetch`.  `respect_robots` is the configuration flag;
`robotsResp`/`ruleAllows` feed the robots check; `outcome` is the HTTP
result; `decode` the decoding chain; `ftime` the measured fetch time. -/
def fetch (url : String) (respect_robots : Bool) (robotsResp : RobotsResponse)
    (ruleAllows : String → Bool) (outcome : HttpOutcome)
    (decode : List Nat → String) (ftime : Rat) : FetchResult :=
  if respect_robots ∧ can_fetch_fresh url robotsResp ruleAllows = false then
    { url := url, status_code := 403, error := some "Blocked by robots.txt",
      fetch_time := ftime }
  else
    match outcome with
    | .timeout => { url := url, status_code := 0, error := some "Request timeout",
                    fetch_time := ftime }
    | .clientError m => { url := url, status_code := 0,
                          error := some ("Client error: " ++ m), fetch_time := ftime }
    | .response status content_type content_length chunks =>
      if is_text_content content_type = false then
        { url := url, status_code := status, headers := some [],
          content_type := some content_type, error := some "Non-text content type",
          fetch_time := ftime }
      else
        { url := url, status_code := status,
          content := read_content_safely decode content_length chunks,
          headers := some [], content_type := some content_type,
          fetch_time := ftime }

/-! ## Scheduler worker (`src/crawler/scheduler.py`) -/

/-- Which frontier/storage operations one `CrawlerScheduler._process_url`
call performs after its fetch. -/
structure ProcessEffects where
  calledMarkFailed : Bool
  calledMarkProcessed : Bool
  storedPage : Bool
  countedDuplicate : Bool
deriving DecidableEq

/-- Python truthiness of `fetch_result.content`: `None` and `""` are falsy. -/
def contentFalsy (c : Option String) : Bool :=
  match c with
  | none => true
  | some s => s = ""

/-- The branch structure of `CrawlerScheduler._process_url` after the fetch
returned `fr` (exception-free execution): `isDup` is the strict=False
duplicate verdict, `storeOk` whether the database store succeeds. -/
def process_url (fr : FetchResult) (isDup : Bool) (storeOk : Bool) : ProcessEffects :=
  if fr.error.isSome ∨ contentFalsy fr.content then
    { calledMarkFailed := true, calledMarkProcessed := false,
      storedPage := false, countedDuplicate := false }
  else if isDup then
    { calledMarkFailed := false, calledMarkProcessed := true,
      storedPage := false, countedDuplicate := true }
  else
    { calledMarkFailed := false, calledMarkProcessed := true,
      storedPage := storeOk, countedDuplicate := false }

/-! ## Duplicate detector (`src/storage/duplicate_detector.py`) -/

/-- `ParsedContent` (the fields consumed by the duplicate detector; the
parser-only fields are irrelevant to the claims and omitted from the
record). -/
structure ParsedContent where
  url : String
  title : Option String := none
  content : Option String := none
  links : List String := []
deriving DecidableEq

/-- Python `' '.join(s.lower().split())`: lowercase, then collapse any
whitespace runs into single spaces, trimming the ends. -/
def splitWsAux : Str → Str → List Str
  | [], acc => if acc = [] then [] else [acc.reverse]
  | c :: rest, acc =>
    if c.isWhitespace then
      (if acc = [] then splitWsAux rest [] else acc.reverse :: splitWsAux rest [])
    else splitWsAux rest (c :: acc)

/-- Python `s.split()` (split on whitespace runs, no empties). -/
def splitWs (s : Str) : List Str :=
  splitWsAux s []

/-- `' '.join(words)`. -/
def joinSpace : List Str → Str
  | [] => []
  | [w] => w
  | w :: x :: t => w ++ ' ' :: joinSpace (x :: t)

/-- The normalization `' '.join(content.lower().split())` shared by
`_hash_content` and `_hash_title`. -/
def collapseWs (s : String) : String :=
  (joinSpace (splitWs (s.toList.map Char.toLower))).asString

/-- `DuplicateDetector._hash_content`: empty input hashes to the empty
string, otherwise the SHA-256 hex digest of the normalized content.
`sha256` abstracts `hashlib.sha256(..).hexdigest()`, a fixed function
producing 64-character digests (in particular never the empty string). -/
def hash_content (sha256 : String → String) (content : String) : String :=
  if content = "" then "" else sha256 (collapseWs content)

/-- `DuplicateDetector._hash_title`: as `_hash_content` but with MD5. -/
def hash_title (md5 : String → String) (title : String) : String :=
  if title = "" then "" else md5 (collapseWs title)

/-- `DuplicateDetector._create_fuzzy_hash`: empty content hashes to the
empty string, otherwise the MD5 digest of the JSON feature vector.
`featureStr` abstracts the deterministic feature-vector serialization
(word-count buckets, significant words, top-ten words) built from
`(content, title)`. -/
def create_fuzzy_hash (md5 : String → String) (featureStr : String → String → String)
    (content : String) (title : String) : String :=
  if content = "" then "" else md5 (featureStr content title)

/-- The four in-memory hash sets of a `DuplicateDetector`, with their
durable (Redis) mirrors. -/
structure DupState where
  url_hashes : List String
  content_hashes : List String
  title_hashes : List String
  fuzzy_hashes : List String
  redis_url_hashes : List String
  redis_content_hashes : List String
  redis_title_hashes : List String
  redis_fuzzy_hashes : List String
deriving DecidableEq

/-- A duplicate detector with all sets empty. -/
def DupState.empty : DupState :=
  { url_hashes := [], content_hashes := [], title_hashes := [], fuzzy_hashes := [],
    redis_url_hashes := [], redis_content_hashes := [], redis_title_hashes := [],
    redis_fuzzy_hashes := [] }

/-- The result dictionary of `DuplicateDetector.check_duplicate`. -/
structure DupResults where
  url_duplicate : Bool
  content_duplicate : Bool
  title_duplicate : Bool
  fuzzy_duplicate : Bool
deriving DecidableEq

/-- The four hashes computed identically at the top of `check_duplicate`
and `add_content`. -/
def contentHashes (sha256 md5 : String → String) (featureStr : String → String → String)
    (p : ParsedContent) : String × String × String × String :=
  (hash_content sha256 (normalize_url p.url),
   hash_content sha256 (p.content.getD ""),
   hash_title md5 (p.title.getD ""),
   create_fuzzy_hash md5 featureStr (p.content.getD "") (p.title.getD ""))

/-- `DuplicateDetector.check_duplicate` (the returned dictionary; the
statistics counters are not modelled). -/
def check_duplicate (sha256 md5 : String → String) (featureStr : String → String → String)
    (st : DupState) (p : ParsedContent) : DupResults :=
  let h := contentHashes sha256 md5 featureStr p
  { url_duplicate := h.1 ∈ st.url_hashes,
    content_duplicate := if h.2.1 ≠ "" then h.2.1 ∈ st.content_hashes else false,
    title_duplicate := if h.2.2.1 ≠ "" then h.2.2.1 ∈ st.title_hashes else false,
    fuzzy_duplicate := if h.2.2.2 ≠ "" then h.2.2.2 ∈ st.fuzzy_hashes else false }

/-- `DuplicateDetector.add_content`.  The URL hash is added untested; the
other three only when nonempty.  `redisOk` tells whether the Redis `sadd`
calls succeed (they run after the in-memory adds inside the same `try`,
so a Redis failure never undoes the in-memory adds). -/
def add_content (sha256 md5 : String → String) (featureStr : String → String → String)
    (st : DupState) (p : ParsedContent) (redisOk : Bool) : DupState :=
  let h := contentHashes sha256 md5 featureStr p
  let st1 :=
    { st with
      url_hashes := insertSet h.1 st.url_hashes,
      content_hashes := if h.2.1 ≠ "" then insertSet h.2.1 st.content_hashes else st.content_hashes,
      title_hashes := if h.2.2.1 ≠ "" then insertSet h.2.2.1 st.title_hashes else st.title_hashes,
      fuzzy_hashes := if h.2.2.2 ≠ "" then insertSet h.2.2.2 st.fuzzy_hashes else st.fuzzy_hashes }
  if redisOk then
    { st1 with
      redis_url_hashes := insertSet h.1 st1.redis_url_hashes,
      redis_content_hashes := if h.2.1 ≠ "" then insertSet h.2.1 st1.redis_content_hashes else st1.redis_content_hashes,
      redis_title_hashes := if h.2.2.1 ≠ "" then insertSet h.2.2.1 st1.redis_title_hashes else st1.redis_title_hashes,
      redis_fuzzy_hashes := if h.2.2.2 ≠ "" then insertSet h.2.2.2 st1.redis_fuzzy_hashes else st1.redis_fuzzy_hashes }
  else st1

/-! ## Supporting lemmas: association lists, sets, frontier dissection -/

theorem mem_insertSet_self (u : String) (s : List String) : u ∈ insertSet u s := by
  unfold insertSet
  split
  · assumption
  · exact List.mem_append_right _ (List.mem_singleton_self u)

theorem mem_insertSet_iff (u v : String) (s : List String) :
    v ∈ insertSet u s ↔ v = u ∨ v ∈ s := by
  unfold insertSet
  split
  · constructor
    · exact Or.inr
    · rintro (rfl | hv)
      · assumption
      · exact hv
  · simp [or_comm]

theorem lookupA_appendQueue_self (k : String) (t : URLTask)
    (m : List (String × List URLTask)) :
    lookupA k (appendQueue k t m) = some ((lookupA k m).getD [] ++ [t]) := by
  induction m with
  | nil => simp [appendQueue, lookupA]
  | cons e rest ih =>
    obtain ⟨k1, q⟩ := e
    by_cases h : k1 = k
    · simp [appendQueue, lookupA, h]
    · simp [appendQueue, lookupA, h, ih]

theorem lookupA_setA_self (k : String) (v : β) (m : List (String × β)) :
    lookupA k (setA k v m) = some v := by
  induction m with
  | nil => simp [setA, lookupA]
  | cons e rest ih =>
    obtain ⟨k1, v1⟩ := e
    by_cases h : k1 = k
    · simp [setA, lookupA, h]
    · simp [setA, lookupA, h, ih]

theorem lookupA_setA_ne (k2 k : String) (v : β) (m : List (String × β)) (h : k2 ≠ k) :
    lookupA k2 (setA k v m) = lookupA k2 m := by
  induction m with
  | nil => simp [setA, lookupA, Ne.symm h]
  | cons e rest ih =>
    obtain ⟨k1, v1⟩ := e
    by_cases h1 : k1 = k
    · subst h1
      simp [setA, lookupA, Ne.symm h]
    · simp [setA, lookupA, h1, ih]

theorem lookupA_mem (k : String) (v : β) (m : List (String × β))
    (h : lookupA k m = some v) : (k, v) ∈ m := by
  induction m with
  | nil => simp [lookupA] at h
  | cons e rest ih =>
    obtain ⟨k1, v1⟩ := e
    by_cases h1 : k1 = k
    · subst h1
      simp [lookupA] at h
      simp [h]
    · simp [lookupA, h1] at h
      exact List.mem_cons_of_mem _ (ih h)

theorem lookupA_of_mem_nodup (k : String) (v : β) (m : List (String × β))
    (hnd : (m.map Prod.fst).Nodup) (h : (k, v) ∈ m) : lookupA k m = some v := by
  induction m with
  | nil => simp at h
  | cons e rest ih =>
    obtain ⟨k1, v1⟩ := e
    simp only [List.map_cons, List.nodup_cons] at hnd
    rcases List.mem_cons.mp h with he | hm
    · injection he with h1 h2
      subst h1
      subst h2
      simp [lookupA]
    · have hk : k1 ≠ k := by
        rintro rfl
        exact hnd.1 (List.mem_map.mpr ⟨(k1, v), hm, rfl⟩)
      simp only [lookupA, hk, if_false]
      exact ih hnd.2 hm

theorem mem_setA (x : String × β) (k : String) (v : β) (m : List (String × β))
    (h : x ∈ setA k v m) : x = (k, v) ∨ x ∈ m := by
  induction m with
  | nil => simpa [setA] using h
  | cons e rest ih =>
    obtain ⟨k1, v1⟩ := e
    by_cases h1 : k1 = k
    · simp [setA, h1] at h
      rcases h with h | h
      · exact Or.inl (by simp [h])
      · exact Or.inr (List.mem_cons_of_mem _ h)
    · simp [setA, h1] at h
      rcases h with h | h
      · exact Or.inr (by simp [h])
      · rcases ih h with h2 | h2
        · exact Or.inl h2
        · exact Or.inr (List.mem_cons_of_mem _ h2)

theorem eraseIdx_append_length (pre : List α) (t : α) (post : List α) :
    (pre ++ t :: post).eraseIdx pre.length = pre ++ post := by
  induction pre with
  | nil => simp [List.eraseIdx]
  | cons a as ih => simp [List.eraseIdx, ih]

/-- The wall-clock of the last delivery to domain `d`
(`domain_last_access.get(domain, 0)`). -/
def lastAccessOf (s : FrontierState) (d : String) : Rat :=
  (lookupA d s.domain_last_access).getD 0

/-- The spec's *ready host* predicate, exactly as tested by
`get_next_url`: nonempty queue and elapsed cooldown. -/
def readyHost (s : FrontierState) (now : Rat) (d : String) (q : List URLTask) : Prop :=
  q ≠ [] ∧ s.politeness_delay ≤ now - lastAccessOf s d

/-- Dissection of a successful `get_next_url` call into its selection,
scan, and state-update parts. -/
theorem get_next_url_some_dissect (s : FrontierState) (now : Rat) (ok : Bool)
    (tk : URLTask) (s2 : FrontierState)
    (h : get_next_url s now ok = (some tk, s2)) :
    ∃ sel i, (sortAvail (availableDomains s now)).head? = some sel ∧
      pickBest ((lookupA sel.1 s.domain_queues).getD []) = some (tk, i) ∧
      s2 = { s with
        domain_queues :=
          setA sel.1 (((lookupA sel.1 s.domain_queues).getD []).eraseIdx i) s.domain_queues,
        domain_last_access := setA sel.1 now s.domain_last_access,
        redis_domain_lists :=
          if ok then
            setA sel.1 (removeFirstEq tk ((lookupA sel.1 s.redis_domain_lists).getD []))
              s.redis_domain_lists
          else s.redis_domain_lists } := by
  unfold get_next_url at h
  split at h
  · simp at h
  · rename_i sel hh
    split at h
    · simp at h
    · rename_i best idx hp
      simp only [Prod.mk.injEq, Option.some.injEq] at h
      obtain ⟨rfl, rfl⟩ := h
      exact ⟨sel, idx, hh, hp, rfl⟩

/-- A `get_next_url` call that yields no task leaves the state untouched. -/
theorem get_next_url_none_frame (s : FrontierState) (now : Rat) (ok : Bool)
    (s2 : FrontierState) (h : get_next_url s now ok = (none, s2)) : s2 = s := by
  unfold get_next_url at h
  split at h
  · injection h with h1 h2
    exact h2.symm
  · rename_i sel hh
    split at h
    · injection h with h1 h2
      exact h2.symm
    · rename_i best idx hp
      injection h with h1 h2
      exact absurd h1 (by simp)

/-- C10: whenever `Frontier.next()` returns null, the frontier state —
queues, last-access map, processed set, and the durable mirror — is
completely unchanged. -/
theorem frontier_none_frame_thm (s : FrontierState) (now : Rat) (ok : Bool)
    (s2 : FrontierState) (h : get_next_url s now ok = (none, s2)) : s2 = s :=
  get_next_url_none_frame s now ok s2 h

theorem frontier_none_frame_thm_witness :
    FrontierState.empty 1 = FrontierState.empty 1 ∧
      get_next_url (FrontierState.empty 1) 0 true = (none, FrontierState.empty 1) :=
  ⟨frontier_none_frame_thm (FrontierState.empty 1) 0 true (FrontierState.empty 1) (by decide),
   by decide⟩

/-! ## C3: `add_url`; C4: `mark_failed` -/

theorem add_url_processed_unchanged (s : FrontierState) (task : URLTask) (ok : Bool) :
    (add_url s task ok).2.processed_urls = s.processed_urls := by
  by_cases h : task.url ∈ s.processed_urls
  · simp [add_url, h]
  · cases ok <;> simp [add_url, h]

/-- C3 (amended): `add` returns false when the URL is processed (so after
`markProcessed(u)` any re-add of `u` returns false); otherwise it appends
the task to the host's in-memory queue — also when the durable push
fails — and to the durable list when the push succeeds, but it returns
the durable push's success, i.e. false on durable failure. -/
theorem add_url_spec_amended (s : FrontierState) (task : URLTask) (ok : Bool) :
    (task.url ∈ s.processed_urls → add_url s task ok = (false, s)) ∧
    (task.url ∉ s.processed_urls →
      (add_url s task ok).1 = ok ∧
      lookupA (get_domain task.url) (add_url s task ok).2.domain_queues =
        some ((lookupA (get_domain task.url) s.domain_queues).getD [] ++ [task]) ∧
      (add_url s task ok).2.processed_urls = s.processed_urls ∧
      (ok = true →
        lookupA (get_domain task.url) (add_url s task ok).2.redis_domain_lists =
          some ((lookupA (get_domain task.url) s.redis_domain_lists).getD [] ++ [task])) ∧
      (ok = false → (add_url s task ok).2.redis_domain_lists = s.redis_domain_lists)) ∧
    (∀ ok1 ok2 : Bool, (add_url (mark_processed s task.url ok1) task ok2).1 = false) := by
  refine ⟨?_, ?_, ?_⟩
  · intro h
    simp [add_url, h]
  · intro h
    cases ok <;> simp [add_url, h, lookupA_appendQueue_self]
  · intro ok1 ok2
    have hm : task.url ∈ (mark_processed s task.url ok1).processed_urls := by
      unfold mark_processed
      cases ok1 <;> simp [mem_insertSet_self]
    simp [add_url, hm]

/-- A task for concrete instantiations. -/
def wTask : URLTask := { url := "https://a.example/x", depth := 0 }

theorem add_url_spec_amended_witness :
    (add_url (FrontierState.empty 1) wTask true).1 = true ∧
    lookupA (get_domain wTask.url) (add_url (FrontierState.empty 1) wTask true).2.domain_queues =
      some ((lookupA (get_domain wTask.url) (FrontierState.empty 1).domain_queues).getD []
        ++ [wTask]) := by
  have h := (add_url_spec_amended (FrontierState.empty 1) wTask true).2.1 (by decide)
  exact ⟨h.1, h.2.1⟩

/-- C3 counterexample: on a fresh frontier (URL not processed), an `add`
whose durable push fails performs the in-memory append but returns
`False`, not `True` as claimed. -/
theorem add_url_durable_failure_cex :
    wTask.url ∉ (FrontierState.empty 1).processed_urls ∧
    (add_url (FrontierState.empty 1) wTask false).1 = false ∧
    lookupA (get_domain wTask.url) (add_url (FrontierState.empty 1) wTask false).2.domain_queues =
      some [wTask] := by
  decide

/-- C4: `mark_failed` with retries left returns true, re-`add`s the task
with incremented `retry_count` and priority LOW, and does not touch the
processed set; with retries exhausted it returns false and marks the URL
processed. -/
theorem mark_failed_spec (s : FrontierState) (task : URLTask) (mr : Nat) (ok : Bool) :
    (task.retry_count < mr →
      (mark_failed s task mr ok).1 = true ∧
      (mark_failed s task mr ok).2.processed_urls = s.processed_urls ∧
      (task.url ∉ s.processed_urls →
        lookupA (get_domain task.url) (mark_failed s task mr ok).2.domain_queues =
          some ((lookupA (get_domain task.url) s.domain_queues).getD [] ++
            [{ task with retry_count := task.retry_count + 1,
                         priority := URLPriority.LOW }]))) ∧
    (mr ≤ task.retry_count →
      (mark_failed s task mr ok).1 = false ∧
      task.url ∈ (mark_failed s task mr ok).2.processed_urls) := by
  constructor
  · intro h
    refine ⟨by simp [mark_failed, h], ?_, ?_⟩
    · simp only [mark_failed, h, if_pos]
      exact add_url_processed_unchanged ..
    · intro h2
      cases ok <;> simp [mark_failed, h, add_url, h2, lookupA_appendQueue_self]
  · intro h
    have h2 : ¬(task.retry_count < mr) := not_lt.mpr h
    refine ⟨by simp [mark_failed, h2], ?_⟩
    unfold mark_failed mark_processed
    cases ok <;> simp [h2, mem_insertSet_self]

theorem mark_failed_spec_witness :
    (mark_failed (FrontierState.empty 1) wTask 3 true).1 = true ∧
    (mark_failed (FrontierState.empty 1) wTask 3 true).2.processed_urls =
      (FrontierState.empty 1).processed_urls := by
  have h := (mark_failed_spec (FrontierState.empty 1) wTask 3 true).1 (by decide)
  exact ⟨h.1, h.2.1⟩

/-! ## C7: `_read_content_safely` size bounds -/

theorem readChunks_bound (cs : List (List Nat)) :
    ∀ acc res, readChunks cs acc = some res → res.length ≤ max_size ∨ res = acc := by
  induction cs with
  | nil =>
    intro acc res h
    simp [readChunks] at h
    exact Or.inr h.symm
  | cons ch rest ih =>
    intro acc res h
    simp only [readChunks] at h
    by_cases hlen : (acc ++ ch).length > max_size
    · rw [if_pos hlen] at h
      simp at h
    · rw [if_neg hlen] at h
      rcases ih _ _ h with h1 | h1
      · exact Or.inl h1
      · subst h1
        exact Or.inl (Nat.le_of_not_lt hlen)

theorem readChunks_sum (cs : List (List Nat)) :
    ∀ acc res, readChunks cs acc = some res →
      res.length = acc.length + (cs.map List.length).sum := by
  induction cs with
  | nil =>
    intro acc res h
    simp [readChunks] at h
    simp [h.symm]
  | cons ch rest ih =>
    intro acc res h
    simp only [readChunks] at h
    by_cases hlen : (acc ++ ch).length > max_size
    · rw [if_pos hlen] at h
      simp at h
    · rw [if_neg hlen] at h
      have h2 := ih _ _ h
      simp only [List.length_append] at h2
      simp [h2]
      omega

/-- C7: a non-null content is produced only if the declared
`Content-Length` (when present) is within the 10 MiB cap and the total
number of body bytes is within the cap. -/
theorem read_content_size_bounds (decode : List Nat → String) (cl : Option Nat)
    (chunks : List (List Nat)) (out : String)
    (h : read_content_safely decode cl chunks = some out) :
    (∀ n, cl = some n → n ≤ max_size) ∧ (chunks.map List.length).sum ≤ max_size := by
  refine ⟨?_, ?_⟩
  · rintro n rfl
    simp only [read_content_safely] at h
    by_cases hb : n > max_size
    · rw [if_pos hb] at h
      exact absurd h (by simp)
    · exact Nat.le_of_not_lt hb
  · have hsome : ∃ res, readChunks chunks [] = some res := by
      cases cl with
      | none =>
        simp only [read_content_safely] at h
        cases hr : readChunks chunks [] with
        | none => rw [hr] at h; simp at h
        | some res => exact ⟨res, rfl⟩
      | some n =>
        simp only [read_content_safely] at h
        by_cases hb : n > max_size
        · rw [if_pos hb] at h
          simp at h
        · rw [if_neg hb] at h
          cases hr : readChunks chunks [] with
          | none => rw [hr] at h; simp at h
          | some res => exact ⟨res, rfl⟩
    obtain ⟨res, hr⟩ := hsome
    have h1 := readChunks_bound chunks [] res hr
    have h2 := readChunks_sum chunks [] res hr
    simp only [List.length_nil, Nat.zero_add] at h2
    rcases h1 with h1 | h1
    · omega
    · subst h1
      simp at h2
      omega

theorem read_content_size_bounds_witness :
    (∀ n, (some 3 : Option Nat) = some n → n ≤ max_size) ∧
      (([[1, 2, 3]] : List (List Nat)).map List.length).sum ≤ max_size :=
  read_content_size_bounds (fun _ => "abc") (some 3) [[1, 2, 3]] "abc" (by decide)

/-! ## C5: robots blocking; C6: worker finality; C8: duplicate flags -/

/-- Every `can_fetch` call answers `True`: the `read_robots_txt` call
raises on both the 200 and the non-200 branch, the exception handler
returns `True`, and (for the same reason) the robots cache is never
filled. -/
theorem can_fetch_fresh_true (url : String) (resp : RobotsResponse) (ra : String → Bool) :
    can_fetch_fresh url resp ra = true := by
  cases resp with
  | requestError m => rfl
  | response status body =>
    unfold can_fetch_fresh
    by_cases h : status = 200 <;> simp [h, read_robots_txt]

/-- C5 (code bug): the robots gate never denies — `RobotsChecker.can_fetch`
always returns `True` because `RobotFileParser` has no `read_robots_txt`
method — so `fetch` never produces the `403 / "Blocked by robots.txt"`
result, whatever robots.txt the origin serves. -/
theorem robots_block_unreachable (url : String) (respect : Bool) (resp : RobotsResponse)
    (ruleAllows : String → Bool) (outcome : HttpOutcome) (decode : List Nat → String)
    (ftime : Rat) :
    can_fetch_fresh url resp ruleAllows = true ∧
    fetch url respect resp ruleAllows outcome decode ftime ≠
      { url := url, status_code := 403, error := some "Blocked by robots.txt",
        fetch_time := ftime } := by
  refine ⟨can_fetch_fresh_true url resp ruleAllows, ?_⟩
  intro hc
  unfold fetch at hc
  rw [can_fetch_fresh_true url resp ruleAllows] at hc
  simp only [Bool.true_eq_false, and_false, if_false] at hc
  split at hc
  · simp at hc
  · simp at hc
  · split at hc <;> simp at hc

/-- C6 counterexample: a fetch completing with HTTP 404 and an empty body
is handed to `markFailed` (retried) and not marked processed, contrary to
the claim that non-200 results are final. -/
theorem worker_non200_retry_cex :
    (fetch "https://x.example/a" false (.requestError "") (fun _ => true)
        (.response 404 "text/html" none []) (fun _ => "") 0).status_code = 404 ∧
    (process_url
        (fetch "https://x.example/a" false (.requestError "") (fun _ => true)
          (.response 404 "text/html" none []) (fun _ => "") 0)
        false true).calledMarkFailed = true ∧
    (process_url
        (fetch "https://x.example/a" false (.requestError "") (fun _ => true)
          (.response 404 "text/html" none []) (fun _ => "") 0)
        false true).calledMarkProcessed = false := by
  decide

/-- C6 (amended): the `FetchResult` carries the real HTTP status, but the
worker's finality decision ignores the status entirely: a result with no
error and nonempty content is processed (never `markFailed`) whatever its
status; a result with an error or empty/null content is handed to
`markFailed` (retried) and not marked processed, again whatever its
status. -/
theorem worker_finality_spec :
    (∀ (url : String) (respect : Bool) (rr : RobotsResponse) (ra : String → Bool)
       (status : Nat) (ct : String) (cl : Option Nat) (chunks : List (List Nat))
       (decode : List Nat → String) (ftime : Rat),
       (fetch url respect rr ra (.response status ct cl chunks) decode ftime).status_code
         = status) ∧
    (∀ (fr : FetchResult) (dup st : Bool), fr.error = none → contentFalsy fr.content = false →
       (process_url fr dup st).calledMarkFailed = false ∧
       (process_url fr dup st).calledMarkProcessed = true) ∧
    (∀ (fr : FetchResult) (dup st : Bool),
       (fr.error.isSome = true ∨ contentFalsy fr.content = true) →
       (process_url fr dup st).calledMarkFailed = true ∧
       (process_url fr dup st).calledMarkProcessed = false) := by
  refine ⟨?_, ?_, ?_⟩
  · intro url respect rr ra status ct cl chunks decode ftime
    unfold fetch
    rw [can_fetch_fresh_true url rr ra]
    simp only [Bool.true_eq_false, and_false, if_false]
    split <;> rfl
  · intro fr dup st h1 h2
    have hcond : ¬(fr.error.isSome = true ∨ contentFalsy fr.content = true) := by
      simp [h1, h2]
    cases dup <;> simp [process_url, hcond]
  · intro fr dup st h
    simp [process_url, h]

theorem worker_finality_spec_witness :
    (fetch "https://x.example/a" false (.requestError "") (fun _ => true)
        (.response 404 "text/html" none [[104, 105]]) (fun _ => "hi") 0).status_code = 404 ∧
    (process_url { url := "u", status_code := 404, content := some "hi" }
        false true).calledMarkFailed = false := by
  constructor
  · exact worker_finality_spec.1 "https://x.example/a" false (.requestError "")
      (fun _ => true) 404 "text/html" none [[104, 105]] (fun _ => "hi") 0
  · exact (worker_finality_spec.2.1 { url := "u", status_code := 404, content := some "hi" }
      false true (by decide) (by decide)).1

/-- C8 counterexample: for a page with empty content, `add` then `check`
of the same `ParsedContent` leaves `content_duplicate` (and
`fuzzy_duplicate`) false — the four flags are not all true. -/
theorem dup_all_flags_cex :
    (check_duplicate (fun _ => "d1") (fun _ => "d2") (fun _ _ => "f")
        (add_content (fun _ => "d1") (fun _ => "d2") (fun _ _ => "f") DupState.empty
          { url := "https://a.example/x", title := some "t", content := some "" } true)
        { url := "https://a.example/x", title := some "t",
          content := some "" }).content_duplicate = false ∧
    check_duplicate (fun _ => "d1") (fun _ => "d2") (fun _ _ => "f")
        (add_content (fun _ => "d1") (fun _ => "d2") (fun _ _ => "f") DupState.empty
          { url := "https://a.example/x", title := some "t", content := some "" } true)
        { url := "https://a.example/x", title := some "t", content := some "" } ≠
      { url_duplicate := true, content_duplicate := true,
        title_duplicate := true, fuzzy_duplicate := true } := by
  decide

/-- C8 (amended): with SHA-256/MD5 digests (never empty) and a page whose
content and title are nonempty, `add` then `check` yields all four flags
true; an empty-string content, title or fuzzy hash (from empty content or
title) never makes its flag true. -/
theorem dup_add_check_spec (sha256 md5 : String → String)
    (featureStr : String → String → String) (st : DupState) (p : ParsedContent) (ok : Bool)
    (hsha : ∀ s, sha256 s ≠ "") (hmd5 : ∀ s, md5 s ≠ "") :
    (p.content.getD "" ≠ "" → p.title.getD "" ≠ "" →
      check_duplicate sha256 md5 featureStr (add_content sha256 md5 featureStr st p ok) p =
        { url_duplicate := true, content_duplicate := true,
          title_duplicate := true, fuzzy_duplicate := true }) ∧
    (∀ (st2 : DupState) (p2 : ParsedContent), p2.content.getD "" = "" →
      (check_duplicate sha256 md5 featureStr st2 p2).content_duplicate = false ∧
      (check_duplicate sha256 md5 featureStr st2 p2).fuzzy_duplicate = false) ∧
    (∀ (st2 : DupState) (p2 : ParsedContent), p2.title.getD "" = "" →
      (check_duplicate sha256 md5 featureStr st2 p2).title_duplicate = false) := by
  refine ⟨?_, ?_, ?_⟩
  · intro hc ht
    have hch : hash_content sha256 (p.content.getD "") ≠ "" := by
      simp [hash_content, hc, hsha]
    have hth : hash_title md5 (p.title.getD "") ≠ "" := by
      simp [hash_title, ht, hmd5]
    have hfh : create_fuzzy_hash md5 featureStr (p.content.getD "") (p.title.getD "") ≠ "" := by
      simp [create_fuzzy_hash, hc, hmd5]
    cases ok <;>
      simp [check_duplicate, add_content, contentHashes, hch, hth, hfh, mem_insertSet_self,
        mem_insertSet_iff]
  · intro st2 p2 h
    have h1 : hash_content sha256 (p2.content.getD "") = "" := by simp [hash_content, h]
    have h2 : create_fuzzy_hash md5 featureStr (p2.content.getD "") (p2.title.getD "") = "" := by
      simp [create_fuzzy_hash, h]
    simp [check_duplicate, contentHashes, h1, h2]
  · intro st2 p2 h
    have h1 : hash_title md5 (p2.title.getD "") = "" := by simp [hash_title, h]
    simp [check_duplicate, contentHashes, h1]

/-- A stand-in SHA-256 digest function for concrete instantiations. -/
def shaW : String → String := fun _ => "d1"

/-- A stand-in MD5 digest function for concrete instantiations. -/
def md5W : String → String := fun _ => "d2"

/-- A stand-in fuzzy feature serialization for concrete instantiations. -/
def fzW : String → String → String := fun _ _ => "f"

theorem shaW_ne (s : String) : shaW s ≠ "" := by
  simp [shaW]

theorem md5W_ne (s : String) : md5W s ≠ "" := by
  simp [md5W]

/-- A parsed page with nonempty content and title. -/
def pW : ParsedContent := { url := "https://a.example/x", title := some "t", content := some "body" }

theorem dup_add_check_spec_witness :
    check_duplicate shaW md5W fzW (add_content shaW md5W fzW DupState.empty pW true) pW =
      { url_duplicate := true, content_duplicate := true,
        title_duplicate := true, fuzzy_duplicate := true } :=
  (dup_add_check_spec shaW md5W fzW DupState.empty pW true shaW_ne md5W_ne).1
    (by decide) (by decide)

/-! ## C2: selection lemmas -/

theorem maxTask_isSome (q : List URLTask) (h : q ≠ []) : (maxTask q).isSome = true := by
  cases q with
  | nil => exact absurd rfl h
  | cons t ts =>
    simp only [maxTask]
    cases maxTask ts with
    | none => rfl
    | some m2 =>
      by_cases hgt : m2.priority.value > t.priority.value <;> simp [hgt]

theorem maxTask_mem (q : List URLTask) (m : URLTask) (h : maxTask q = some m) : m ∈ q := by
  induction q with
  | nil => simp [maxTask] at h
  | cons t ts ih =>
    simp only [maxTask] at h
    split at h
    · injection h with h1
      simp [h1.symm]
    · rename_i m2 hm
      split at h
      · injection h with h1
        exact List.mem_cons_of_mem _ (ih (h1 ▸ hm))
      · injection h with h1
        simp [h1.symm]

theorem maxTask_le (q : List URLTask) (m : URLTask) (h : maxTask q = some m) :
    ∀ u ∈ q, u.priority.value ≤ m.priority.value := by
  induction q generalizing m with
  | nil => simp
  | cons t ts ih =>
    simp only [maxTask] at h
    split at h
    · rename_i hm
      injection h with h1
      subst h1
      intro u hu
      rcases List.mem_cons.mp hu with rfl | hu2
      · exact le_refl _
      · have hts : ts = [] := by
          cases ts with
          | nil => rfl
          | cons a as =>
            have h2 := maxTask_isSome (a :: as) (by simp)
            rw [hm] at h2
            simp at h2
        subst hts
        simp at hu2
    · rename_i m2 hm
      split at h
      · rename_i hgt
        injection h with h1
        subst h1
        intro u hu
        rcases List.mem_cons.mp hu with rfl | hu2
        · exact Nat.le_of_lt hgt
        · exact ih _ hm u hu2
      · rename_i hgt
        injection h with h1
        subst h1
        intro u hu
        rcases List.mem_cons.mp hu with rfl | hu2
        · exact le_refl _
        · exact le_trans (ih _ hm u hu2) (Nat.le_of_not_lt hgt)

theorem pickBestAux_acc_isSome (q : List URLTask) :
    ∀ (n : Nat) (x : URLTask × Nat), (pickBestAux q n (some x)).isSome = true := by
  induction q with
  | nil => intro n x; rfl
  | cons t ts ih =>
    intro n x
    obtain ⟨b, j⟩ := x
    simp only [pickBestAux]
    by_cases hgt : t.priority.value > b.priority.value <;> simp [hgt, ih]

theorem pickBest_isSome (q : List URLTask) (h : q ≠ []) : (pickBest q).isSome = true := by
  cases q with
  | nil => exact absurd rfl h
  | cons t ts => exact pickBestAux_acc_isSome ts 1 (t, 0)

theorem pickBestAux_spec (q : List URLTask) :
    ∀ (n j : Nat) (b t : URLTask) (i : Nat),
      pickBestAux q n (some (b, j)) = some (t, i) →
      b.priority.value ≤ t.priority.value ∧
      (∀ u ∈ q, u.priority.value ≤ t.priority.value) ∧
      ((t = b ∧ i = j) ∨
        ∃ pre post, q = pre ++ t :: post ∧ i = n + pre.length ∧
          b.priority.value < t.priority.value ∧
          ∀ u ∈ pre, u.priority.value < t.priority.value) := by
  induction q with
  | nil =>
    intro n j b t i h
    simp only [pickBestAux, Option.some.injEq, Prod.mk.injEq] at h
    obtain ⟨rfl, rfl⟩ := h
    exact ⟨le_refl _, by simp, Or.inl ⟨rfl, rfl⟩⟩
  | cons u rest ih =>
    intro n j b t i h
    simp only [pickBestAux] at h
    split at h
    · rename_i hgt
      obtain ⟨hub, hall, hcase⟩ := ih (n + 1) n u t i h
      refine ⟨le_trans (Nat.le_of_lt hgt) hub, ?_, ?_⟩
      · intro v hv
        rcases List.mem_cons.mp hv with rfl | hv2
        · exact hub
        · exact hall v hv2
      · rcases hcase with ⟨rfl, rfl⟩ | ⟨pre, post, hq, hi, hbt, hpre⟩
        · exact Or.inr ⟨[], rest, rfl, by simp, hgt, by simp⟩
        · refine Or.inr ⟨u :: pre, post, by simp [hq],
            by simp only [List.length_cons]; omega,
            lt_of_le_of_lt (Nat.le_of_lt hgt) hbt, ?_⟩
          intro v hv
          rcases List.mem_cons.mp hv with rfl | hv2
          · exact hbt
          · exact hpre v hv2
    · rename_i hgt
      obtain ⟨hub, hall, hcase⟩ := ih (n + 1) j b t i h
      have hu_le_b : u.priority.value ≤ b.priority.value := Nat.le_of_not_lt hgt
      refine ⟨hub, ?_, ?_⟩
      · intro v hv
        rcases List.mem_cons.mp hv with rfl | hv2
        · exact le_trans hu_le_b hub
        · exact hall v hv2
      · rcases hcase with ⟨rfl, rfl⟩ | ⟨pre, post, hq, hi, hbt, hpre⟩
        · exact Or.inl ⟨rfl, rfl⟩
        · refine Or.inr ⟨u :: pre, post, by simp [hq],
            by simp only [List.length_cons]; omega, hbt, ?_⟩
          intro v hv
          rcases List.mem_cons.mp hv with rfl | hv2
          · exact lt_of_le_of_lt hu_le_b hbt
          · exact hpre v hv2

theorem pickBest_spec (q : List URLTask) (t : URLTask) (i : Nat)
    (h : pickBest q = some (t, i)) :
    ∃ pre post, q = pre ++ t :: post ∧ i = pre.length ∧
      (∀ u ∈ pre, u.priority.value < t.priority.value) ∧
      (∀ u ∈ q, u.priority.value ≤ t.priority.value) := by
  cases q with
  | nil => simp [pickBest, pickBestAux] at h
  | cons u rest =>
    have h2 : pickBestAux rest 1 (some (u, 0)) = some (t, i) := h
    obtain ⟨hub, hall, hcase⟩ := pickBestAux_spec rest 1 0 u t i h2
    rcases hcase with ⟨rfl, rfl⟩ | ⟨pre, post, hq, hi, hbt, hpre⟩
    · refine ⟨[], rest, rfl, rfl, by simp, ?_⟩
      intro v hv
      rcases List.mem_cons.mp hv with rfl | hv2
      · exact le_refl _
      · exact hall v hv2
    · refine ⟨u :: pre, post, by simp [hq],
        by simp only [List.length_cons]; omega, ?_, ?_⟩
      · intro v hv
        rcases List.mem_cons.mp hv with rfl | hv2
        · exact hbt
        · exact hpre v hv2
      · intro v hv
        rcases List.mem_cons.mp hv with rfl | hv2
        · exact hub
        · exact hall v hv2

theorem mem_availableDomains_elim (s : FrontierState) (now : Rat)
    (x : String × URLTask × Rat) (h : x ∈ availableDomains s now) :
    ∃ q, (x.1, q) ∈ s.domain_queues ∧ q ≠ [] ∧
      s.politeness_delay ≤ now - lastAccessOf s x.1 ∧
      maxTask q = some x.2.1 ∧ x.2.2 = now - lastAccessOf s x.1 := by
  unfold availableDomains at h
  obtain ⟨e, he, hfe⟩ := List.mem_filterMap.mp h
  split at hfe
  · exact absurd hfe (by simp)
  · rename_i h1
    split at hfe
    · rename_i h2
      rcases Option.map_eq_some'.mp hfe with ⟨m, hm, hxm⟩
      subst hxm
      exact ⟨e.2, by simpa using he, h1, h2, hm, rfl⟩
    · exact absurd hfe (by simp)

theorem mem_availableDomains_intro (s : FrontierState) (now : Rat) (d : String)
    (q : List URLTask) (m : URLTask) (hmem : (d, q) ∈ s.domain_queues) (hne : q ≠ [])
    (hready : s.politeness_delay ≤ now - lastAccessOf s d) (hmax : maxTask q = some m) :
    (d, m, now - lastAccessOf s d) ∈ availableDomains s now := by
  unfold availableDomains
  refine List.mem_filterMap.mpr ⟨(d, q), hmem, ?_⟩
  unfold lastAccessOf at hready
  simp [hne, hready, hmax, lastAccessOf]

theorem availableDomains_eq_nil (s : FrontierState) (now : Rat)
    (h : ∀ e ∈ s.domain_queues, ¬readyHost s now e.1 e.2) :
    availableDomains s now = [] := by
  unfold availableDomains
  rw [List.filterMap_eq_nil_iff]
  intro e he
  have h2 := h e he
  unfold readyHost at h2
  by_cases h1 : e.2 = []
  · simp [h1]
  · have h3 : ¬(s.politeness_delay ≤ now - lastAccessOf s e.1) := by
      intro h4
      exact h2 ⟨h1, h4⟩
    unfold lastAccessOf at h3
    simp [h1, h3]

theorem availKeyLe_refl (x : String × URLTask × Rat) : availKeyLe x x :=
  Or.inr ⟨rfl, le_refl _⟩

theorem availKeyLe_total (x y : String × URLTask × Rat) :
    availKeyLe x y ∨ availKeyLe y x := by
  unfold availKeyLe
  rcases Nat.lt_trichotomy x.2.1.priority.value y.2.1.priority.value with h | h | h
  · exact Or.inl (Or.inl h)
  · rcases le_total x.2.2 y.2.2 with h2 | h2
    · exact Or.inl (Or.inr ⟨h, h2⟩)
    · exact Or.inr (Or.inr ⟨h.symm, h2⟩)
  · exact Or.inr (Or.inl h)

theorem availKeyLe_trans (x y z : String × URLTask × Rat)
    (h1 : availKeyLe x y) (h2 : availKeyLe y z) : availKeyLe x z := by
  unfold availKeyLe at h1 h2 ⊢
  rcases h1 with h1 | ⟨h1, h1b⟩
  · rcases h2 with h2 | ⟨h2, h2b⟩
    · exact Or.inl (lt_trans h1 h2)
    · exact Or.inl (h2 ▸ h1)
  · rcases h2 with h2 | ⟨h2, h2b⟩
    · exact Or.inl (h1 ▸ h2)
    · exact Or.inr ⟨h1.trans h2, le_trans h1b h2b⟩

instance : IsTotal (String × URLTask × Rat) availGe :=
  ⟨fun x y => availKeyLe_total y x⟩

instance : IsTrans (String × URLTask × Rat) availGe :=
  ⟨fun x y z h1 h2 => availKeyLe_trans z y x h2 h1⟩

theorem listHeadq_mem (l : List α) (a : α) (h : l.head? = some a) : a ∈ l := by
  cases l with
  | nil => simp at h
  | cons x t =>
    injection h with h1
    exact h1 ▸ List.mem_cons_self x t

theorem sortAvail_head_mem (l : List (String × URLTask × Rat))
    (hd : String × URLTask × Rat) (hh : (sortAvail l).head? = some hd) : hd ∈ l := by
  have h1 := listHeadq_mem _ _ hh
  unfold sortAvail at h1
  simpa using h1

theorem sortAvail_head_ge (l : List (String × URLTask × Rat))
    (x hd : String × URLTask × Rat) (hh : (sortAvail l).head? = some hd) (hx : x ∈ l) :
    availKeyLe x hd := by
  have hs : List.Sorted availGe (sortAvail l) := List.sorted_insertionSort availGe l
  have hx2 : x ∈ sortAvail l := by
    unfold sortAvail
    simpa using hx
  cases hl : sortAvail l with
  | nil =>
    rw [hl] at hh
    simp at hh
  | cons h0 t =>
    rw [hl] at hh hx2 hs
    injection hh with h1
    subst h1
    rcases List.mem_cons.mp hx2 with rfl | hx3
    · exact availKeyLe_refl _
    · exact List.rel_of_sorted_cons hs x hx3

theorem get_next_url_fst_none_iff (s : FrontierState) (now : Rat) (ok : Bool) :
    (get_next_url s now ok).1 = none ↔
      ((sortAvail (availableDomains s now)).head? = none ∨
       ∃ sel, (sortAvail (availableDomains s now)).head? = some sel ∧
         pickBest ((lookupA sel.1 s.domain_queues).getD []) = none) := by
  unfold get_next_url
  split
  · rename_i hh
    simp [hh]
  · rename_i sel hh
    split
    · rename_i hp
      simp only [hh]
      constructor
      · intro _
        exact Or.inr ⟨sel, rfl, hp⟩
      · intro _
        trivial
    · rename_i b i hp
      constructor
      · intro hcontra
        simp at hcontra
      · rintro (hcontra | ⟨sel2, hsel2, hp2⟩)
        · rw [hh] at hcontra
          simp at hcontra
        · rw [hh] at hsel2
          obtain rfl : sel = sel2 := by injection hsel2
          rw [hp] at hp2
          simp at hp2

/-- C2: at a single `next()` call, a host is ready iff its queue is
nonempty and its cooldown has elapsed, and the call returns null iff no
host is ready; a returned task comes from a ready host, is the first
task in insertion order among that queue's maximal-priority tasks, has
the globally maximal priority value across all tasks of all ready hosts
(ties between ready hosts going to the longest-idle host), and the call
removes exactly that task from the chosen queue and updates the host's
last access to `now`, leaving the processed set unchanged. -/
theorem frontier_selection_spec (s : FrontierState) (now : Rat) (ok : Bool)
    (hnd : (s.domain_queues.map Prod.fst).Nodup) :
    ((get_next_url s now ok).1 = none ↔
      ∀ e ∈ s.domain_queues, ¬readyHost s now e.1 e.2) ∧
    (∀ tk s2, get_next_url s now ok = (some tk, s2) →
      ∃ d q pre post,
        (d, q) ∈ s.domain_queues ∧ readyHost s now d q ∧
        q = pre ++ tk :: post ∧
        (∀ u ∈ pre, u.priority.value < tk.priority.value) ∧
        (∀ u ∈ q, u.priority.value ≤ tk.priority.value) ∧
        (∀ e ∈ s.domain_queues, readyHost s now e.1 e.2 →
          (∀ u ∈ e.2, u.priority.value ≤ tk.priority.value) ∧
          ((∃ u ∈ e.2, u.priority.value = tk.priority.value) →
            now - lastAccessOf s e.1 ≤ now - lastAccessOf s d)) ∧
        s2.domain_queues = setA d (pre ++ post) s.domain_queues ∧
        s2.domain_last_access = setA d now s.domain_last_access ∧
        s2.processed_urls = s.processed_urls) := by
  constructor
  · constructor
    · intro hnone e he hready
      obtain ⟨hne, hdel⟩ := hready
      obtain ⟨m, hm⟩ := Option.isSome_iff_exists.mp (maxTask_isSome e.2 hne)
      have hmem : (e.1, m, now - lastAccessOf s e.1) ∈ availableDomains s now :=
        mem_availableDomains_intro s now e.1 e.2 m (by simpa using he) hne hdel hm
      rcases (get_next_url_fst_none_iff s now ok).mp hnone with hh | ⟨sel, hsel, hp⟩
      · have hnil : sortAvail (availableDomains s now) = [] :=
          List.head?_eq_none_iff.mp hh
        have hperm := List.perm_insertionSort availGe (availableDomains s now)
        unfold sortAvail at hnil
        rw [hnil] at hperm
        rw [← hperm.nil_eq] at hmem
        simp at hmem
      · have hselmem := sortAvail_head_mem _ _ hsel
        obtain ⟨qsel, hqmem, hqne, hqready, hqmax, htsa⟩ :=
          mem_availableDomains_elim s now sel hselmem
        have hlook : lookupA sel.1 s.domain_queues = some qsel :=
          lookupA_of_mem_nodup _ _ _ hnd hqmem
        rw [hlook] at hp
        simp only [Option.getD_some] at hp
        have hpb := pickBest_isSome qsel hqne
        rw [hp] at hpb
        simp at hpb
    · intro hall
      have hnil : availableDomains s now = [] := availableDomains_eq_nil s now hall
      refine (get_next_url_fst_none_iff s now ok).mpr (Or.inl ?_)
      unfold sortAvail
      rw [hnil]
      rfl
  · intro tk s2 h
    obtain ⟨sel, i, hsel, hp, hs2⟩ := get_next_url_some_dissect s now ok tk s2 h
    have hselmem := sortAvail_head_mem _ _ hsel
    obtain ⟨qsel, hqmem, hqne, hqready, hqmax, htsa⟩ :=
      mem_availableDomains_elim s now sel hselmem
    have hlook : lookupA sel.1 s.domain_queues = some qsel :=
      lookupA_of_mem_nodup _ _ _ hnd hqmem
    rw [hlook] at hp
    simp only [Option.getD_some] at hp
    obtain ⟨pre, post, hq, hi, hpre, hall⟩ := pickBest_spec qsel tk i hp
    have htkmem : tk ∈ qsel := by
      rw [hq]
      exact List.mem_append_right _ (List.mem_cons_self _ _)
    have hle1 : sel.2.1.priority.value ≤ tk.priority.value :=
      hall sel.2.1 (maxTask_mem qsel sel.2.1 hqmax)
    have hle2 : tk.priority.value ≤ sel.2.1.priority.value :=
      maxTask_le qsel sel.2.1 hqmax tk htkmem
    have heqp : tk.priority.value = sel.2.1.priority.value := le_antisymm hle2 hle1
    refine ⟨sel.1, qsel, pre, post, hqmem, ⟨hqne, hqready⟩, hq, hpre, hall, ?_, ?_, ?_, ?_⟩
    · intro e he hre
      obtain ⟨hene, hedel⟩ := hre
      obtain ⟨me, hme⟩ := Option.isSome_iff_exists.mp (maxTask_isSome e.2 hene)
      have hemem : (e.1, me, now - lastAccessOf s e.1) ∈ availableDomains s now :=
        mem_availableDomains_intro s now e.1 e.2 me (by simpa using he) hene hedel hme
      have hkey := sortAvail_head_ge _ _ _ hsel hemem
      unfold availKeyLe at hkey
      simp only at hkey
      constructor
      · intro u hu
        have hule : u.priority.value ≤ me.priority.value := maxTask_le e.2 me hme u hu
        rcases hkey with hk | ⟨hk, _⟩
        · omega
        · omega
      · rintro ⟨u, hu, hueq⟩
        have hule : u.priority.value ≤ me.priority.value := maxTask_le e.2 me hme u hu
        rcases hkey with hk | ⟨hk, hk2⟩
        · have : False := by omega
          exact this.elim
        · exact htsa ▸ hk2
    · subst hs2
      simp only [hlook, Option.getD_some]
      rw [hq, hi, eraseIdx_append_length]
    · subst hs2
      rfl
    · subst hs2
      rfl

/-- A NORMAL-priority task on host `h.example`. -/
def wTaskN : URLTask := { url := "https://h.example/a", depth := 0 }

/-- A HIGH-priority task on host `h.example`. -/
def wTaskH : URLTask := { url := "https://h.example/b", depth := 0, priority := URLPriority.HIGH }

/-- A frontier with one domain queue holding `wTaskN` then `wTaskH`. -/
def sW : FrontierState :=
  { politeness_delay := 2, domain_queues := [("h.example", [wTaskN, wTaskH])],
    domain_last_access := [], processed_urls := [],
    redis_domain_lists := [("h.example", [wTaskN, wTaskH])], redis_processed := [] }

/-- The state after `sW` hands out `wTaskH` at time 5. -/
def s2W : FrontierState :=
  { politeness_delay := 2, domain_queues := [("h.example", [wTaskN])],
    domain_last_access := [("h.example", 5)], processed_urls := [],
    redis_domain_lists := [("h.example", [wTaskN])], redis_processed := [] }

theorem frontier_selection_spec_witness :
    ∃ d q pre post,
      (d, q) ∈ sW.domain_queues ∧ readyHost sW 5 d q ∧
      q = pre ++ wTaskH :: post ∧
      (∀ u ∈ pre, u.priority.value < wTaskH.priority.value) ∧
      (∀ u ∈ q, u.priority.value ≤ wTaskH.priority.value) ∧
      (∀ e ∈ sW.domain_queues, readyHost sW 5 e.1 e.2 →
        (∀ u ∈ e.2, u.priority.value ≤ wTaskH.priority.value) ∧
        ((∃ u ∈ e.2, u.priority.value = wTaskH.priority.value) →
          5 - lastAccessOf sW e.1 ≤ 5 - lastAccessOf sW d)) ∧
      s2W.domain_queues = setA d (pre ++ post) sW.domain_queues ∧
      s2W.domain_last_access = setA d 5 sW.domain_last_access ∧
      s2W.processed_urls = sW.processed_urls :=
  (frontier_selection_spec sW 5 true (by decide)).2 wTaskH s2W (by decide)

/-! ## C1: politeness gap between successive deliveries to one host -/

/-- Every task sits in the queue of its own host — the invariant
`add_url` maintains by keying queues with `_get_domain(task.url)`. -/
def QueuesConsistent (s : FrontierState) : Prop :=
  ∀ e ∈ s.domain_queues, ∀ t ∈ e.2, get_domain t.url = e.1

theorem gnu_some_props (s : FrontierState) (now : Rat) (ok : Bool) (tk : URLTask)
    (s2 : FrontierState) (hInv : QueuesConsistent s)
    (h : get_next_url s now ok = (some tk, s2)) :
    lastAccessOf s2 (get_domain tk.url) = now ∧
    s.politeness_delay ≤ now - lastAccessOf s (get_domain tk.url) ∧
    (∀ h0, h0 ≠ get_domain tk.url → lastAccessOf s2 h0 = lastAccessOf s h0) ∧
    QueuesConsistent s2 ∧
    s2.politeness_delay = s.politeness_delay := by
  obtain ⟨sel, i, hsel, hp, hs2⟩ := get_next_url_some_dissect s now ok tk s2 h
  have hlook : ∃ qsel, lookupA sel.1 s.domain_queues = some qsel := by
    cases hl : lookupA sel.1 s.domain_queues with
    | none =>
      rw [hl] at hp
      simp [pickBest, pickBestAux] at hp
    | some qsel => exact ⟨qsel, rfl⟩
  obtain ⟨qsel, hlook⟩ := hlook
  rw [hlook] at hp
  simp only [Option.getD_some] at hp
  obtain ⟨pre, post, hq, hi, hpre, hall⟩ := pickBest_spec qsel tk i hp
  have htkmem : tk ∈ qsel := by
    rw [hq]
    exact List.mem_append_right _ (List.mem_cons_self _ _)
  have hqmem : (sel.1, qsel) ∈ s.domain_queues := lookupA_mem _ _ _ hlook
  have hdom : get_domain tk.url = sel.1 := hInv (sel.1, qsel) hqmem tk htkmem
  have hready : s.politeness_delay ≤ now - lastAccessOf s sel.1 := by
    have hselmem := sortAvail_head_mem _ _ hsel
    obtain ⟨q2, _, _, hr, _, _⟩ := mem_availableDomains_elim s now sel hselmem
    exact hr
  subst hs2
  refine ⟨?_, ?_, ?_, ?_, rfl⟩
  · rw [hdom]
    unfold lastAccessOf
    simp only [lookupA_setA_self, Option.getD_some]
  · rw [hdom]
    exact hready
  · intro h0 hne
    rw [hdom] at hne
    unfold lastAccessOf
    simp only [lookupA_setA_ne h0 sel.1 now s.domain_last_access hne]
  · intro e he t ht
    rcases mem_setA e sel.1 _ s.domain_queues he with he2 | he2
    · subst he2
      simp only at ht
      have ht2 : t ∈ (lookupA sel.1 s.domain_queues).getD [] :=
        (List.eraseIdx_sublist _ i).subset ht
      rw [hlook] at ht2
      simp only [Option.getD_some] at ht2
      exact hInv (sel.1, qsel) hqmem t ht2
    · exact hInv e he2 t ht

theorem gnu_other_host (s : FrontierState) (now : Rat) (ok : Bool) (r : Option URLTask)
    (s2 : FrontierState) (h0 : String) (hInv : QueuesConsistent s)
    (h : get_next_url s now ok = (r, s2))
    (hno : ∀ tk, r = some tk → get_domain tk.url ≠ h0) :
    lastAccessOf s2 h0 = lastAccessOf s h0 ∧ QueuesConsistent s2 ∧
      s2.politeness_delay = s.politeness_delay := by
  cases r with
  | none =>
    have h2 := get_next_url_none_frame s now ok s2 h
    subst h2
    exact ⟨rfl, hInv, rfl⟩
  | some tk =>
    obtain ⟨_, _, hother, hInv2, hdel⟩ := gnu_some_props s now ok tk s2 hInv h
    exact ⟨hother h0 (fun he => hno tk rfl (he ▸ rfl)) , hInv2, hdel⟩

theorem run_calls_other_host (calls : List (Rat × Bool)) :
    ∀ (s : FrontierState) (res : List (Option URLTask)) (s2 : FrontierState) (h0 : String),
      QueuesConsistent s → run_calls s calls = (res, s2) →
      (∀ r ∈ res, ∀ tk, r = some tk → get_domain tk.url ≠ h0) →
      lastAccessOf s2 h0 = lastAccessOf s h0 ∧ QueuesConsistent s2 ∧
        s2.politeness_delay = s.politeness_delay := by
  induction calls with
  | nil =>
    intro s res s2 h0 hInv hrun hno
    simp only [run_calls, Prod.mk.injEq] at hrun
    obtain ⟨rfl, rfl⟩ := hrun
    exact ⟨rfl, hInv, rfl⟩
  | cons c rest ih =>
    intro s res s2 h0 hInv hrun hno
    obtain ⟨t, ok⟩ := c
    simp only [run_calls, Prod.mk.injEq] at hrun
    obtain ⟨rfl, rfl⟩ := hrun
    have hfirst := gnu_other_host s t ok (get_next_url s t ok).1 (get_next_url s t ok).2 h0
      hInv rfl (hno _ (List.mem_cons_self _ _))
    have hrest := ih (get_next_url s t ok).2 (run_calls (get_next_url s t ok).2 rest).1
      (run_calls (get_next_url s t ok).2 rest).2 h0 hfirst.2.1 rfl
      (fun r hr => hno r (List.mem_cons_of_mem _ hr))
    exact ⟨hrest.1.trans hfirst.1, hrest.2.1, hrest.2.2.trans hfirst.2.2⟩

/-- C1: for two successive `next()` calls that deliver tasks of the same
host `h0` at wall times `t1 < t2` — with no intermediate call delivering
a task of `h0` — the gap satisfies `t2 − t1 ≥ politeness_delay`; a call
never returns a task for a host whose cooldown has not elapsed. -/
theorem frontier_politeness_gap (s0 : FrontierState) (h0 : String) (t1 t2 : Rat)
    (ok1 ok2 : Bool) (mid : List (Rat × Bool)) (tk1 tk2 : URLTask)
    (s1 s2 s3 : FrontierState) (res : List (Option URLTask))
    (hInv : QueuesConsistent s0)
    (h1 : get_next_url s0 t1 ok1 = (some tk1, s1)) (hd1 : get_domain tk1.url = h0)
    (hrun : run_calls s1 mid = (res, s2))
    (hmid : ∀ r ∈ res, ∀ tk, r = some tk → get_domain tk.url ≠ h0)
    (h2 : get_next_url s2 t2 ok2 = (some tk2, s3)) (hd2 : get_domain tk2.url = h0) :
    s0.politeness_delay ≤ t2 - t1 := by
  obtain ⟨hla1, _, _, hInv1, hdel1⟩ := gnu_some_props s0 t1 ok1 tk1 s1 hInv h1
  rw [hd1] at hla1
  obtain ⟨hla2, hInv2, hdel2⟩ := run_calls_other_host mid s1 res s2 h0 hInv1 hrun hmid
  obtain ⟨_, hready2, _, _, _⟩ := gnu_some_props s2 t2 ok2 tk2 s3 hInv2 h2
  rw [hd2] at hready2
  rw [hla2, hla1] at hready2
  rw [hdel2, hdel1] at hready2
  exact hready2

/-- The state after `s2W` hands out `wTaskN` at time 7. -/
def s3W : FrontierState :=
  { politeness_delay := 2, domain_queues := [("h.example", [])],
    domain_last_access := [("h.example", 7)], processed_urls := [],
    redis_domain_lists := [("h.example", [])], redis_processed := [] }

theorem frontier_politeness_gap_witness : sW.politeness_delay ≤ 7 - 5 :=
  frontier_politeness_gap sW "h.example" 5 7 true true [] wTaskH wTaskN s2W s2W s3W []
    (by unfold QueuesConsistent; decide) (by decide) (by decide) (by decide) (by simp)
    (by decide) (by decide)

/-! ## C9: URL normalization — list and character lemmas -/

theorem splitAtFirst_eq_none (c : Char) (l : Str) :
    splitAtFirst c l = none ↔ c ∉ l := by
  induction l with
  | nil => simp [splitAtFirst]
  | cons x xs ih =>
    by_cases h : x = c
    · subst h
      simp [splitAtFirst]
    · simp [splitAtFirst, h, Option.map_eq_none', ih, Ne.symm h]

theorem splitAtFirst_eq_some (c : Char) (l : Str) :
    ∀ a b, splitAtFirst c l = some (a, b) → l = a ++ c :: b ∧ c ∉ a := by
  induction l with
  | nil => intro a b h; simp [splitAtFirst] at h
  | cons x xs ih =>
    intro a b h
    by_cases hx : x = c
    · subst hx
      simp [splitAtFirst] at h
      obtain ⟨rfl, rfl⟩ := h
      simp
    · simp only [splitAtFirst, hx, if_false] at h
      cases hs : splitAtFirst c xs with
      | none =>
        rw [hs] at h
        simp at h
      | some p =>
        obtain ⟨p1, p2⟩ := p
        rw [hs] at h
        simp only [Option.map_some', Option.some.injEq] at h
        injection h with ha hb
        subst ha
        subst hb
        obtain ⟨hl, hmem⟩ := ih p1 p2 hs
        constructor
        · rw [hl]
          simp
        · simp only [List.mem_cons, not_or]
          exact ⟨Ne.symm hx, hmem⟩

theorem splitAtFirst_append (c : Char) (a b : Str) (ha : c ∉ a) :
    splitAtFirst c (a ++ c :: b) = some (a, b) := by
  induction a with
  | nil => simp [splitAtFirst]
  | cons x xs ih =>
    simp only [List.mem_cons, not_or] at ha
    have hstep : splitAtFirst c ((x :: xs) ++ c :: b) =
        (splitAtFirst c (xs ++ c :: b)).map (fun p => (x :: p.1, p.2)) := by
      simp only [List.cons_append, splitAtFirst]
      rw [if_neg (fun hh => ha.1 hh.symm)]
      rfl
    rw [hstep, ih ha.2]
    rfl

theorem splitAtFirst_not_mem (c : Char) (l : Str) (h : c ∉ l) :
    splitAtFirst c l = none :=
  (splitAtFirst_eq_none c l).mpr h

theorem takeWhile_append_all (p : Char → Bool) (a b : Str)
    (ha : ∀ x ∈ a, p x = true) : (a ++ b).takeWhile p = a ++ b.takeWhile p := by
  induction a with
  | nil => simp
  | cons x xs ih =>
    simp only [List.cons_append, List.takeWhile_cons]
    rw [ha x (List.mem_cons_self x xs)]
    simp only [if_true]
    rw [ih (fun y hy => ha y (List.mem_cons_of_mem _ hy))]

theorem dropWhile_append_all (p : Char → Bool) (a b : Str)
    (ha : ∀ x ∈ a, p x = true) : (a ++ b).dropWhile p = b.dropWhile p := by
  induction a with
  | nil => simp
  | cons x xs ih =>
    simp only [List.cons_append, List.dropWhile_cons]
    rw [ha x (List.mem_cons_self x xs)]
    simp only [if_true]
    exact ih (fun y hy => ha y (List.mem_cons_of_mem _ hy))

theorem mem_takeWhile (p : Char → Bool) (l : Str) :
    ∀ x ∈ l.takeWhile p, x ∈ l ∧ p x = true := by
  induction l with
  | nil => simp
  | cons y ys ih =>
    intro x hx
    rw [List.takeWhile_cons] at hx
    by_cases hy : p y = true
    · rw [hy] at hx
      simp only [if_true, List.mem_cons] at hx
      rcases hx with rfl | hx
      · exact ⟨List.mem_cons_self _ _, hy⟩
      · obtain ⟨h1, h2⟩ := ih x hx
        exact ⟨List.mem_cons_of_mem _ h1, h2⟩
    · simp only [hy] at hx
      simp at hx

theorem toLower_fix (c : Char) (h : ¬(c.toNat ≥ 65 ∧ c.toNat ≤ 90)) : c.toLower = c := by
  simp only [Char.toLower]
  rw [if_neg h]

theorem ofNat_toNat_letter (n : Nat) (h1 : 97 ≤ n) (h2 : n ≤ 122) :
    (Char.ofNat n).toNat = n := by
  rw [Char.ofNat, dif_pos]
  · rfl
  · exact Or.inl (by omega)

theorem toLower_not_upper (c : Char) :
    ¬((c.toLower).toNat ≥ 65 ∧ (c.toLower).toNat ≤ 90) := by
  simp only [Char.toLower]
  by_cases h : c.toNat ≥ 65 ∧ c.toNat ≤ 90
  · rw [if_pos h]
    rw [ofNat_toNat_letter (c.toNat + 32) (by omega) (by omega)]
    omega
  · rw [if_neg h]
    exact h

theorem toLower_idem (c : Char) : c.toLower.toLower = c.toLower :=
  toLower_fix _ (toLower_not_upper c)

theorem mem_map_toLower_fix (url : Str) (c : Char) (h : c ∈ url.map Char.toLower) :
    c.toLower = c := by
  obtain ⟨c0, _, rfl⟩ := List.mem_map.mp h
  exact toLower_idem c0

theorem map_toLower_fix (s : Str) (h : ∀ c ∈ s, c.toLower = c) :
    s.map Char.toLower = s := by
  induction s with
  | nil => rfl
  | cons c rest ih =>
    simp only [List.map_cons]
    rw [h c (List.mem_cons_self _ _), ih (fun y hy => h y (List.mem_cons_of_mem _ hy))]

theorem quotePlus_fix (s : Str) (h : ∀ c ∈ s, alwaysSafeChar c = true) :
    quotePlusChars s = s := by
  induction s with
  | nil => rfl
  | cons c rest ih =>
    have hc := h c (List.mem_cons_self _ _)
    have ih2 := ih (fun y hy => h y (List.mem_cons_of_mem _ hy))
    simp [quotePlusChars, hc, ih2]

theorem unquoteChars_cons_ne (c : Char) (rest : Str) (hc : c ≠ '%') :
    unquoteChars (c :: rest) = c :: unquoteChars rest := by
  cases rest with
  | nil => simp [unquoteChars, hc]
  | cons h1 t1 =>
    cases t1 with
    | nil => simp [unquoteChars, hc]
    | cons h2 t2 =>
      rw [unquoteChars]
      intro h1a h2a ra hca _
      exact hc hca

theorem unquoteChars_fix (s : Str) (h : ∀ c ∈ s, c ≠ '%') : unquoteChars s = s := by
  induction s with
  | nil => rfl
  | cons c rest ih =>
    rw [unquoteChars_cons_ne c rest (h c (List.mem_cons_self _ _))]
    rw [ih (fun y hy => h y (List.mem_cons_of_mem _ hy))]

theorem unquotePlus_fix (s : Str) (h : ∀ c ∈ s, c ≠ '%' ∧ c ≠ '+') :
    unquotePlusChars s = s := by
  unfold unquotePlusChars
  have hmap : s.map (fun c => if c = '+' then ' ' else c) = s := by
    induction s with
    | nil => rfl
    | cons c rest ih =>
      simp only [List.map_cons]
      rw [if_neg (h c (List.mem_cons_self _ _)).2,
        ih (fun y hy => h y (List.mem_cons_of_mem _ hy))]
  rw [hmap]
  exact unquoteChars_fix s (fun c hc => (h c hc).1)

theorem alwaysSafe_not_special (c : Char) (h : alwaysSafeChar c = true) :
    c ≠ '%' ∧ c ≠ '+' ∧ c ≠ '&' ∧ c ≠ '=' ∧ c ≠ '#' ∧ c ≠ '?' ∧ c ≠ '/' ∧ c ≠ ':' ∧ c ≠ ';' := by
  refine ⟨?_, ?_, ?_, ?_, ?_, ?_, ?_, ?_, ?_⟩ <;>
    (rintro rfl; revert h; decide)

theorem splitAll_not_mem (c : Char) (a : Str) (ha : c ∉ a) : splitAll c a = [a] := by
  induction a with
  | nil => rfl
  | cons x xs ih =>
    simp only [List.mem_cons, not_or] at ha
    have hxc : ¬x = c := fun hh => ha.1 hh.symm
    simp only [splitAll, ih ha.2]
    simp [hxc]

theorem splitAll_ne_nil (c : Char) (l : Str) : splitAll c l ≠ [] := by
  cases l with
  | nil => simp [splitAll]
  | cons x xs =>
    simp only [splitAll]
    cases splitAll c xs with
    | nil => simp
    | cons h t =>
      by_cases hx : x = c <;> simp [hx]

theorem splitAll_append (c : Char) (a b : Str) (ha : c ∉ a) :
    splitAll c (a ++ c :: b) = a :: splitAll c b := by
  induction a with
  | nil =>
    simp only [List.nil_append, splitAll]
    cases hs : splitAll c b with
    | nil => exact absurd hs (splitAll_ne_nil c b)
    | cons h t => simp
  | cons x xs ih =>
    simp only [List.mem_cons, not_or] at ha
    have hxc : ¬x = c := fun hh => ha.1 hh.symm
    have hi : splitAll c (xs ++ c :: b) = xs :: splitAll c b := ih ha.2
    simp only [List.cons_append, splitAll, hi]
    simp [hxc]
    rw [hi]

theorem joinAmp_splitAll (ps : List Str) (hne : ps ≠ [])
    (hp : ∀ p ∈ ps, '&' ∉ p) : splitAll '&' (joinAmp ps) = ps := by
  induction ps with
  | nil => exact absurd rfl hne
  | cons x xs ih =>
    cases xs with
    | nil =>
      simp only [joinAmp]
      exact splitAll_not_mem '&' x (hp x (List.mem_cons_self _ _))
    | cons y ys =>
      have hx : '&' ∉ x := hp x (List.mem_cons_self _ _)
      simp only [joinAmp]
      rw [splitAll_append '&' x (joinAmp (y :: ys)) hx]
      rw [ih (by simp) (fun p hpm => hp p (List.mem_cons_of_mem _ hpm))]

/-! ## C9: the string order used by `sorted` -/

theorem strLtB_asymm (a b : Str) (h : strLtB a b = true) : strLtB b a = false := by
  induction a generalizing b with
  | nil =>
    cases b with
    | nil => simp [strLtB] at h
    | cons y ys => simp [strLtB]
  | cons x xs ih =>
    cases b with
    | nil => simp [strLtB] at h
    | cons y ys =>
      simp only [strLtB] at h ⊢
      by_cases h1 : x.toNat < y.toNat
      · rw [if_neg (by omega), if_pos h1]
      · rw [if_neg h1] at h
        by_cases h2 : y.toNat < x.toNat
        · rw [if_pos h2] at h
          simp at h
        · rw [if_neg h2] at h
          rw [if_neg h2, if_neg h1]
          exact ih ys h

theorem strLtB_trans (a b c : Str) (h1 : strLtB a b = true) (h2 : strLtB b c = true) :
    strLtB a c = true := by
  induction a generalizing b c with
  | nil =>
    cases c with
    | nil =>
      cases b with
      | nil => exact h1
      | cons y ys => simp [strLtB] at h2
    | cons z zs => simp [strLtB]
  | cons x xs ih =>
    cases b with
    | nil => simp [strLtB] at h1
    | cons y ys =>
      cases c with
      | nil => simp [strLtB] at h2
      | cons z zs =>
        simp only [strLtB] at h1 h2 ⊢
        by_cases hxy : x.toNat < y.toNat
        · by_cases hyz : y.toNat < z.toNat
          · rw [if_pos (by omega)]
          · rw [if_neg hyz] at h2
            by_cases hzy : z.toNat < y.toNat
            · rw [if_pos hzy] at h2
              simp at h2
            · rw [if_pos (by omega)]
        · rw [if_neg hxy] at h1
          by_cases hyx : y.toNat < x.toNat
          · rw [if_pos hyx] at h1
            simp at h1
          · rw [if_neg hyx] at h1
            by_cases hyz : y.toNat < z.toNat
            · rw [if_pos (by omega)]
            · rw [if_neg hyz] at h2
              by_cases hzy : z.toNat < y.toNat
              · rw [if_pos hzy] at h2
                simp at h2
              · rw [if_neg hzy] at h2
                rw [if_neg (by omega), if_neg (by omega)]
                exact ih ys zs h1 h2

theorem strLeB_total (a b : Str) : strLeB a b = true ∨ strLeB b a = true := by
  unfold strLeB
  by_cases h : strLtB b a = true
  · right
    rw [strLtB_asymm b a h]
    rfl
  · left
    simp [Bool.not_eq_true] at h
    rw [h]
    rfl

theorem strLtB_conn (a b : Str) (h1 : strLtB a b = false) (h2 : strLtB b a = false) :
    a = b := by
  induction a generalizing b with
  | nil =>
    cases b with
    | nil => rfl
    | cons y ys => simp [strLtB] at h1
  | cons x xs ih =>
    cases b with
    | nil => simp [strLtB] at h2
    | cons y ys =>
      simp only [strLtB] at h1 h2
      by_cases hxy : x.toNat < y.toNat
      · rw [if_pos hxy] at h1
        simp at h1
      · rw [if_neg hxy] at h1
        by_cases hyx : y.toNat < x.toNat
        · rw [if_pos hyx] at h2
          simp at h2
        · rw [if_neg hyx, if_neg hxy] at h2
          rw [if_neg hyx] at h1
          have hn : x.toNat = y.toNat := by omega
          have hxe : x = y :=
            Char.eq_of_val_eq (UInt32.eq_of_val_eq (Fin.eq_of_val_eq hn))
          rw [hxe, ih ys h1 h2]

theorem strLeB_trans (a b c : Str) (h1 : strLeB a b = true) (h2 : strLeB b c = true) :
    strLeB a c = true := by
  unfold strLeB at h1 h2 ⊢
  simp only [Bool.not_eq_true'] at h1 h2 ⊢
  by_cases hca : strLtB c a = true
  · have hba : b = a := strLtB_conn b a h1 (by
      by_contra hab
      simp only [Bool.not_eq_false] at hab
      have := strLtB_trans c a b hca hab
      rw [this] at h2
      exact Bool.noConfusion h2)
    rw [hba] at h2
    rw [h2] at hca
    exact absurd hca (by simp)
  · simp only [Bool.not_eq_true] at hca
    exact hca

instance : IsTotal (Str × List Str) pairLe :=
  ⟨fun a b => strLeB_total a.1 b.1⟩

instance : IsTrans (Str × List Str) pairLe :=
  ⟨fun a b c h1 h2 => strLeB_trans a.1 b.1 c.1 h1 h2⟩

/-! ## C9: dissection of `urlparseChars` on well-shaped absolute URLs -/

theorem urlparseChars_eq (l : Str) :
    urlparseChars l =
      { scheme := (splitScheme l).1,
        netloc := (splitNetloc (splitScheme l).2).1,
        path := (splitParamsIf (splitScheme l).1 (splitQuery (splitFragment
          (splitNetloc (splitScheme l).2).2).1).1).1,
        params := (splitParamsIf (splitScheme l).1 (splitQuery (splitFragment
          (splitNetloc (splitScheme l).2).2).1).1).2,
        query := (splitQuery (splitFragment
          (splitNetloc (splitScheme l).2).2).1).2,
        fragment := (splitFragment (splitNetloc (splitScheme l).2).2).2 } := rfl

theorem schemeCharB_ne_colon (c : Char) (h : schemeCharB c = true) : c ≠ ':' := by
  rintro rfl
  revert h
  decide

theorem splitScheme_append (s r : Str)
    (hs : ∃ c cs, s = c :: cs ∧ c.isAlpha = true)
    (hsch : s.all schemeCharB = true) :
    splitScheme (s ++ ':' :: r) = (s.map Char.toLower, r) := by
  obtain ⟨c, cs, rfl, hca⟩ := hs
  have hnc : ':' ∉ c :: cs := by
    intro hmem
    have := List.all_eq_true.mp hsch _ hmem
    exact schemeCharB_ne_colon _ this rfl
  have h1 := splitAtFirst_append ':' (c :: cs) r hnc
  unfold splitScheme
  rw [h1]
  simp only
  rw [if_pos]
  simp [hca, hsch]

theorem splitNetloc_exact (n t : Str)
    (hn : ∀ c ∈ n, netlocDelim c = false)
    (ht : t = [] ∨ ∃ d t2, t = d :: t2 ∧ netlocDelim d = true) :
    splitNetloc ('/' :: '/' :: (n ++ t)) = (n, t) := by
  unfold splitNetloc
  rw [if_pos (by simp)]
  simp only [List.drop_succ_cons, List.drop_zero]
  have h1 : (n ++ t).takeWhile (fun c => !netlocDelim c) =
      n ++ t.takeWhile (fun c => !netlocDelim c) := by
    exact takeWhile_append_all _ n t (fun x hx => by simp [hn x hx])
  have h2 : (n ++ t).dropWhile (fun c => !netlocDelim c) =
      t.dropWhile (fun c => !netlocDelim c) := by
    exact dropWhile_append_all _ n t (fun x hx => by simp [hn x hx])
  rcases ht with rfl | ⟨d, t2, rfl, hd⟩
  · rw [List.append_nil, List.takeWhile_eq_self_iff.mpr (fun x hx => by simp [hn x hx]),
      List.dropWhile_eq_nil_iff.mpr (fun x hx => by simp [hn x hx])]
  · rw [h1, h2, List.takeWhile_cons_of_neg (by simp [hd]),
      List.dropWhile_cons_of_neg (by simp [hd])]
    simp

theorem splitFragment_not_mem (s : Str) (h : '#' ∉ s) : splitFragment s = (s, []) := by
  unfold splitFragment
  rw [splitAtFirst_not_mem _ _ h]

theorem splitQuery_not_mem (s : Str) (h : '?' ∉ s) : splitQuery s = (s, []) := by
  unfold splitQuery
  rw [splitAtFirst_not_mem _ _ h]

theorem splitQuery_append (a b : Str) (h : '?' ∉ a) :
    splitQuery (a ++ '?' :: b) = (a, b) := by
  unfold splitQuery
  rw [splitAtFirst_append _ _ _ h]

theorem splitParamsIf_not_mem (sch s : Str) (h : ';' ∉ s) :
    splitParamsIf sch s = (s, []) := by
  unfold splitParamsIf
  rw [if_neg (fun hand => h hand.2)]

/-- Parsing a reassembled absolute URL `scheme://netloc path ?query` recovers
exactly its components (no params, no fragment). -/
theorem urlparse_shape (s n pa q : Str)
    (hs : ∃ c cs, s = c :: cs ∧ c.isAlpha = true)
    (hsch : s.all schemeCharB = true)
    (hlow : s.map Char.toLower = s)
    (hn : ∀ c ∈ n, netlocDelim c = false)
    (hpa : pa = [] ∨ ∃ t, pa = '/' :: t)
    (hpaq : '?' ∉ pa) (hpah : '#' ∉ pa) (hpas : ';' ∉ pa)
    (hqh : '#' ∉ q) :
    urlparseChars (s ++ ':' :: '/' :: '/' :: (n ++ (pa ++ (if q = [] then [] else '?' :: q)))) =
      { scheme := s, netloc := n, path := pa, params := [], query := q, fragment := [] } := by
  have h1 : splitScheme (s ++ ':' :: '/' :: '/' :: (n ++ (pa ++ (if q = [] then [] else '?' :: q)))) =
      (s, '/' :: '/' :: (n ++ (pa ++ (if q = [] then [] else '?' :: q)))) := by
    rw [splitScheme_append _ _ hs hsch, hlow]
  have h2 : splitNetloc ('/' :: '/' :: (n ++ (pa ++ (if q = [] then [] else '?' :: q)))) =
      (n, pa ++ (if q = [] then [] else '?' :: q)) := by
    apply splitNetloc_exact _ _ hn
    rcases hpa with rfl | ⟨t, rfl⟩
    · by_cases hq : q = []
      · left; simp [hq]
      · right; exact ⟨'?', q, by simp [hq], by decide⟩
    · right; exact ⟨'/', t ++ (if q = [] then [] else '?' :: q), by simp, by decide⟩
  have hfr : '#' ∉ pa ++ (if q = [] then [] else '?' :: q) := by
    intro hmem
    rcases List.mem_append.mp hmem with h | h
    · exact hpah h
    · by_cases hq : q = []
      · simp [hq] at h
      · rw [if_neg hq] at h
        rcases List.mem_cons.mp h with h | h
        · exact absurd h (by decide)
        · exact hqh h
  have h3 := splitFragment_not_mem _ hfr
  have h4 : splitQuery (pa ++ (if q = [] then [] else '?' :: q)) = (pa, q) := by
    by_cases hq : q = []
    · rw [if_pos hq, List.append_nil, splitQuery_not_mem _ hpaq, hq]
    · rw [if_neg hq, splitQuery_append _ _ hpaq]
  have h5 := splitParamsIf_not_mem s _ hpas
  rw [urlparseChars_eq, h1]
  simp only
  rw [h2]
  simp only
  rw [h3]
  simp only
  rw [h4]
  simp only
  rw [h5]

/-- Unparsing components `⟨s, n, pa, [], q, []⟩` with a nonempty scheme and
netloc and an absolute (or empty) path produces exactly
`s ++ ":" ++ "//" ++ n ++ pa ++ ("?" ++ q)?`. -/
theorem urlunparse_shape (s n pa q : Str) (hs : s ≠ []) (hn : n ≠ [])
    (hpa : pa = [] ∨ ∃ t, pa = '/' :: t) :
    urlunparseChars ⟨s, n, pa, [], q, []⟩ =
      s ++ ':' :: '/' :: '/' :: (n ++ (pa ++ (if q = [] then [] else '?' :: q))) := by
  rcases hpa with rfl | ⟨t, rfl⟩ <;> by_cases hq : q = [] <;>
    simp [urlunparseChars, urlunsplitChars, hs, hn, hq]

/-! ## C9: round-trip of the rebuilt query through `urlencode` / `parse_qs` -/

/-- A query token character that survives the encode/decode cycle literally:
never percent-encoded by `quote_plus` and already lowercase. -/
def goodTokenChar (c : Char) : Bool :=
  alwaysSafeChar c && decide (c.toLower = c)

theorem goodTokenChar_safe (c : Char) (h : goodTokenChar c = true) :
    alwaysSafeChar c = true ∧ c.toLower = c := by
  unfold goodTokenChar at h
  rw [Bool.and_eq_true, decide_eq_true_eq] at h
  exact h

/-- The `(key, value)` pairs enumerated by `urlencode(..., doseq=True)`. -/
def flattenPairs (ps : List (Str × List Str)) : List (Str × Str) :=
  ps.flatMap (fun kv => kv.2.map (fun v => (kv.1, v)))

theorem flattenPairs_cons (k : Str) (vs : List Str) (rest : List (Str × List Str)) :
    flattenPairs ((k, vs) :: rest) = vs.map (fun v => (k, v)) ++ flattenPairs rest := by
  simp [flattenPairs]

theorem encodePairs_eq (ps : List (Str × List Str))
    (h : ∀ kv ∈ ps, (∀ c ∈ kv.1, alwaysSafeChar c = true) ∧
      ∀ v ∈ kv.2, ∀ c ∈ v, alwaysSafeChar c = true) :
    encodePairs ps = (flattenPairs ps).map (fun kv => kv.1 ++ '=' :: kv.2) := by
  induction ps with
  | nil => rfl
  | cons kv rest ih =>
    obtain ⟨k, vs⟩ := kv
    rw [flattenPairs_cons, encodePairs, List.map_append, List.map_map]
    congr 1
    · apply List.map_congr_left
      intro v hv
      have hk := (h (k, vs) (by simp)).1
      have hvv := (h (k, vs) (by simp)).2 v hv
      simp only [Function.comp]
      rw [quotePlus_fix k hk, quotePlus_fix v hvv]
    · exact ih (fun kv hkv => h kv (List.mem_cons_of_mem _ hkv))

theorem parseQslPiece_encoded (k v : Str)
    (hk : ∀ c ∈ k, alwaysSafeChar c = true)
    (hv : ∀ c ∈ v, alwaysSafeChar c = true) (hvne : v ≠ []) :
    parseQslPiece (k ++ '=' :: v) = some (k, v) := by
  have hke : '=' ∉ k := fun hm => (alwaysSafe_not_special _ (hk _ hm)).2.2.2.1 rfl
  unfold parseQslPiece
  rw [if_neg (by simp), splitAtFirst_append _ _ _ hke]
  simp only
  rw [if_pos hvne,
    unquotePlus_fix k (fun c hc =>
      ⟨(alwaysSafe_not_special c (hk c hc)).1, (alwaysSafe_not_special c (hk c hc)).2.1⟩),
    unquotePlus_fix v (fun c hc =>
      ⟨(alwaysSafe_not_special c (hv c hc)).1, (alwaysSafe_not_special c (hv c hc)).2.1⟩)]

theorem filterMap_pieces (items : List (Str × Str))
    (h : ∀ kv ∈ items, (∀ c ∈ kv.1, alwaysSafeChar c = true) ∧
      (∀ c ∈ kv.2, alwaysSafeChar c = true) ∧ kv.2 ≠ []) :
    (items.map (fun kv => kv.1 ++ '=' :: kv.2)).filterMap parseQslPiece = items := by
  induction items with
  | nil => rfl
  | cons kv rest ih =>
    obtain ⟨hk, hv, hvne⟩ := h kv (by simp)
    rw [List.map_cons,
      List.filterMap_cons_some (parseQslPiece_encoded kv.1 kv.2 hk hv hvne),
      ih (fun x hx => h x (List.mem_cons_of_mem _ hx))]

theorem appendAtKey_not_mem (k : Str) (v : Str) (acc : List (Str × List Str))
    (h : k ∉ acc.map Prod.fst) :
    appendAtKey k v acc = acc ++ [(k, [v])] := by
  induction acc with
  | nil => rfl
  | cons kv rest ih =>
    obtain ⟨k1, vs⟩ := kv
    simp only [List.map_cons, List.mem_cons, not_or] at h
    rw [appendAtKey, if_neg (fun he => h.1 he.symm), ih h.2, List.cons_append]

theorem appendAtKey_last (k : Str) (v : Str) (acc : List (Str × List Str)) (ws : List Str)
    (h : k ∉ acc.map Prod.fst) :
    appendAtKey k v (acc ++ [(k, ws)]) = acc ++ [(k, ws ++ [v])] := by
  induction acc with
  | nil => simp [appendAtKey]
  | cons kv rest ih =>
    obtain ⟨k1, vs⟩ := kv
    simp only [List.map_cons, List.mem_cons, not_or] at h
    rw [List.cons_append, appendAtKey, if_neg (fun he => h.1 he.symm), ih h.2,
      List.cons_append]

theorem foldl_appendAtKey_block (k : Str) (vs : List Str) (acc : List (Str × List Str))
    (ws : List Str) (h : k ∉ acc.map Prod.fst) :
    (vs.map (fun v => (k, v))).foldl (fun d kv => appendAtKey kv.1 kv.2 d)
      (acc ++ [(k, ws)]) = acc ++ [(k, ws ++ vs)] := by
  induction vs generalizing ws with
  | nil => simp
  | cons v vrest ih =>
    rw [List.map_cons, List.foldl_cons]
    simp only
    rw [appendAtKey_last k v acc ws h, ih (ws ++ [v])]
    simp

theorem foldl_appendAtKey_flatten (ps : List (Str × List Str)) :
    ∀ acc : List (Str × List Str),
    (∀ kv ∈ ps, kv.1 ∉ acc.map Prod.fst) →
    (ps.map Prod.fst).Nodup →
    (∀ kv ∈ ps, kv.2 ≠ []) →
    (flattenPairs ps).foldl (fun d kv => appendAtKey kv.1 kv.2 d) acc = acc ++ ps := by
  induction ps with
  | nil => intro acc _ _ _; simp [flattenPairs]
  | cons kv rest ih =>
    intro acc hdisj hnodup hvals
    obtain ⟨k, vs⟩ := kv
    rw [flattenPairs_cons, List.foldl_append]
    cases vs with
    | nil => exact absurd rfl (hvals (k, []) (by simp))
    | cons v vrest =>
      rw [List.map_cons, List.foldl_cons]
      simp only
      have hk : k ∉ acc.map Prod.fst := hdisj (k, v :: vrest) (by simp)
      rw [appendAtKey_not_mem k v acc hk, foldl_appendAtKey_block k vrest acc [v] hk]
      rw [List.map_cons] at hnodup
      have hknr : k ∉ rest.map Prod.fst := (List.nodup_cons.mp hnodup).1
      rw [ih (acc ++ [(k, [v] ++ vrest)]) ?_ (List.nodup_cons.mp hnodup).2
        (fun x hx => hvals x (List.mem_cons_of_mem _ hx))]
      · simp
      · intro kv2 hkv2
        rw [List.map_append]
        intro hm
        rcases List.mem_append.mp hm with hm | hm
        · exact hdisj kv2 (List.mem_cons_of_mem _ hkv2) hm
        · simp only [List.map_cons, List.map_nil, List.mem_singleton] at hm
          exact hknr (hm ▸ List.mem_map_of_mem Prod.fst hkv2)

theorem flattenPairs_tokens (ps : List (Str × List Str))
    (htok : ∀ kv ∈ ps, (∀ c ∈ kv.1, alwaysSafeChar c = true) ∧ kv.2 ≠ [] ∧
      ∀ v ∈ kv.2, v ≠ [] ∧ ∀ c ∈ v, alwaysSafeChar c = true) :
    ∀ kv ∈ flattenPairs ps, (∀ c ∈ kv.1, alwaysSafeChar c = true) ∧
      (∀ c ∈ kv.2, alwaysSafeChar c = true) ∧ kv.2 ≠ [] := by
  intro kv hkv
  unfold flattenPairs at hkv
  rw [List.mem_flatMap] at hkv
  obtain ⟨a, ha, hkv⟩ := hkv
  obtain ⟨v, hv, rfl⟩ := List.mem_map.mp hkv
  exact ⟨(htok a ha).1, ((htok a ha).2.2 v hv).2, ((htok a ha).2.2 v hv).1⟩

theorem parseQs_roundtrip (ps : List (Str × List Str))
    (hnodup : (ps.map Prod.fst).Nodup)
    (htok : ∀ kv ∈ ps, (∀ c ∈ kv.1, alwaysSafeChar c = true) ∧ kv.2 ≠ [] ∧
      ∀ v ∈ kv.2, v ≠ [] ∧ ∀ c ∈ v, alwaysSafeChar c = true) :
    parseQs (joinAmp (encodePairs ps)) = ps := by
  have hflat := flattenPairs_tokens ps htok
  rw [encodePairs_eq ps (fun kv hkv =>
    ⟨(htok kv hkv).1, fun v hv => ((htok kv hkv).2.2 v hv).2⟩)]
  have h1 : parseQsl (joinAmp ((flattenPairs ps).map (fun kv => kv.1 ++ '=' :: kv.2))) =
      flattenPairs ps := by
    cases hfp : flattenPairs ps with
    | nil => rfl
    | cons a rest2 =>
      unfold parseQsl
      rw [joinAmp_splitAll _ (by simp) ?_]
      · exact filterMap_pieces _ (hfp ▸ hflat)
      · intro piece hp
        obtain ⟨kv, hkv, rfl⟩ := List.mem_map.mp hp
        obtain ⟨hks, hvs, -⟩ := (hfp ▸ hflat) kv hkv
        intro hamp
        rcases List.mem_append.mp hamp with hm | hm
        · exact (alwaysSafe_not_special _ (hks _ hm)).2.2.1 rfl
        · rcases List.mem_cons.mp hm with hm | hm
          · exact absurd hm (by decide)
          · exact (alwaysSafe_not_special _ (hvs _ hm)).2.2.1 rfl
  unfold parseQs
  rw [h1]
  rw [foldl_appendAtKey_flatten ps [] (by simp) hnodup
    (fun kv hkv => (htok kv hkv).2.1), List.nil_append]

theorem mem_joinAmp (l : List Str) (c : Char) (h : c ∈ joinAmp l) :
    c = '&' ∨ ∃ p ∈ l, c ∈ p := by
  induction l with
  | nil => simp [joinAmp] at h
  | cons x t ih =>
    cases t with
    | nil => right; exact ⟨x, by simp, h⟩
    | cons y t2 =>
      rw [joinAmp] at h
      rcases List.mem_append.mp h with h | h
      · right; exact ⟨x, by simp, h⟩
      · rcases List.mem_cons.mp h with rfl | h
        · left; rfl
        · rcases ih h with h | ⟨p, hp, hc⟩
          · left; exact h
          · right; exact ⟨p, List.mem_cons_of_mem _ hp, hc⟩

theorem filterTracking_eq_self (d : List (Str × List Str))
    (h : ∀ kv ∈ d, kv.1 ∉ trackingParams) : filterTracking d = d := by
  unfold filterTracking
  apply List.filter_eq_self.mpr
  intro kv hkv
  simp [h kv hkv]

theorem sortQueryPairs_eq_self (d : List (Str × List Str))
    (h : List.Sorted pairLe d) : sortQueryPairs d = d :=
  List.Sorted.insertionSort_eq h

theorem normQuery_fix (ps : List (Str × List Str))
    (hnodup : (ps.map Prod.fst).Nodup)
    (hsorted : List.Sorted pairLe ps)
    (htrack : ∀ kv ∈ ps, kv.1 ∉ trackingParams)
    (htok : ∀ kv ∈ ps, (∀ c ∈ kv.1, alwaysSafeChar c = true) ∧ kv.2 ≠ [] ∧
      ∀ v ∈ kv.2, v ≠ [] ∧ ∀ c ∈ v, alwaysSafeChar c = true) :
    normQueryChars (joinAmp (encodePairs ps)) = joinAmp (encodePairs ps) := by
  by_cases hq : joinAmp (encodePairs ps) = []
  · rw [hq]
    rfl
  · unfold normQueryChars
    rw [if_pos hq, parseQs_roundtrip ps hnodup htok, filterTracking_eq_self ps htrack,
      sortQueryPairs_eq_self ps hsorted]

theorem normQuery_chars (ps : List (Str × List Str))
    (htok : ∀ kv ∈ ps, (∀ c ∈ kv.1, goodTokenChar c = true) ∧
      ∀ v ∈ kv.2, ∀ c ∈ v, goodTokenChar c = true) :
    ∀ c ∈ joinAmp (encodePairs ps), goodTokenChar c = true ∨ c = '=' ∨ c = '&' := by
  intro c hc
  rw [encodePairs_eq ps (fun kv hkv =>
    ⟨fun c2 hc2 => (goodTokenChar_safe c2 ((htok kv hkv).1 c2 hc2)).1,
     fun v hv c2 hc2 => (goodTokenChar_safe c2 ((htok kv hkv).2 v hv c2 hc2)).1⟩)] at hc
  rcases mem_joinAmp _ c hc with rfl | ⟨p, hp, hcp⟩
  · right; right; rfl
  · obtain ⟨kv, hkv, rfl⟩ := List.mem_map.mp hp
    unfold flattenPairs at hkv
    rw [List.mem_flatMap] at hkv
    obtain ⟨a, ha, hkv⟩ := hkv
    obtain ⟨v, hv, rfl⟩ := List.mem_map.mp hkv
    rcases List.mem_append.mp hcp with h | h
    · left; exact (htok a ha).1 c h
    · rcases List.mem_cons.mp h with rfl | h
      · right; left; rfl
      · left; exact (htok a ha).2 v hv c h

/-! ## C9: dissecting the first parse of a lowered URL -/

theorem dropWhile_head_not (p : Char → Bool) (l : Str) (d : Char) (t : Str)
    (h : l.dropWhile p = d :: t) : p d = false := by
  induction l with
  | nil => simp at h
  | cons x xs ih =>
    rw [List.dropWhile_cons] at h
    split at h
    · exact ih h
    · rename_i hx
      injection h with h1 _
      subst h1
      rw [Bool.not_eq_true] at hx
      exact hx

theorem urlparse_scheme_def (l : Str) :
    (urlparseChars l).scheme = (splitScheme l).1 := rfl

theorem urlparse_netloc_def (l : Str) :
    (urlparseChars l).netloc = (splitNetloc (splitScheme l).2).1 := rfl

theorem urlparse_path_def (l : Str) :
    (urlparseChars l).path = (splitParamsIf (splitScheme l).1 (splitQuery (splitFragment
      (splitNetloc (splitScheme l).2).2).1).1).1 := rfl

theorem urlparse_params_def (l : Str) :
    (urlparseChars l).params = (splitParamsIf (splitScheme l).1 (splitQuery (splitFragment
      (splitNetloc (splitScheme l).2).2).1).1).2 := rfl

theorem urlparse_query_def (l : Str) :
    (urlparseChars l).query = (splitQuery (splitFragment
      (splitNetloc (splitScheme l).2).2).1).2 := rfl

theorem splitScheme_dissect (l : Str) (h : (splitScheme l).1 ≠ []) :
    ∃ c cs rest, l = (c :: cs) ++ ':' :: rest ∧ c.isAlpha = true ∧
      (c :: cs).all schemeCharB = true := by
  unfold splitScheme at h
  split at h
  · exact absurd rfl h
  · rename_i pre rest hsp
    split at h
    · exact absurd rfl h
    · rename_i p ps2
      split at h
      · rename_i hif
        rw [Bool.and_eq_true] at hif
        obtain ⟨h1, -⟩ := splitAtFirst_eq_some ':' l _ _ hsp
        exact ⟨p, ps2, rest, h1, hif.1, hif.2⟩
      · exact absurd rfl h

theorem splitScheme_snd_sub (l : Str) : ∀ c ∈ (splitScheme l).2, c ∈ l := by
  unfold splitScheme
  split
  · exact fun c hc => hc
  · rename_i pre rest hsp
    split
    · exact fun c hc => hc
    · rename_i p ps2
      split
      · rename_i hif
        obtain ⟨h1, -⟩ := splitAtFirst_eq_some ':' l _ _ hsp
        intro c hc
        rw [h1]
        exact List.mem_append_right _ (List.mem_cons_of_mem _ hc)
      · exact fun c hc => hc

theorem splitNetloc_fst_facts (s : Str) :
    ∀ c ∈ (splitNetloc s).1, netlocDelim c = false ∧ c ∈ s := by
  unfold splitNetloc
  split
  · intro c hc
    have h2 := mem_takeWhile _ _ c hc
    refine ⟨?_, List.mem_of_mem_drop h2.1⟩
    have h3 := h2.2
    rw [Bool.not_eq_true'] at h3
    exact h3
  · intro c hc
    simp at hc

theorem splitNetloc_snd_sub (s : Str) : ∀ c ∈ (splitNetloc s).2, c ∈ s := by
  unfold splitNetloc
  split
  · exact fun c hc => List.mem_of_mem_drop ((List.dropWhile_sublist _).subset hc)
  · exact fun c hc => hc

theorem splitNetloc_snd_shape (s : Str) (h : (splitNetloc s).1 ≠ []) :
    (splitNetloc s).2 = [] ∨
      ∃ d t, (splitNetloc s).2 = d :: t ∧ netlocDelim d = true := by
  unfold splitNetloc at h ⊢
  split at h
  · rename_i hcond
    rw [if_pos hcond]
    cases hd : (s.drop 2).dropWhile (fun c => !netlocDelim c) with
    | nil => left; rfl
    | cons d t =>
      right
      refine ⟨d, t, rfl, ?_⟩
      have h2 := dropWhile_head_not _ _ _ _ hd
      simpa using h2
  · exact absurd rfl h

theorem splitFragment_fst_sub (s : Str) : ∀ c ∈ (splitFragment s).1, c ∈ s := by
  unfold splitFragment
  cases hsp : splitAtFirst '#' s with
  | none => exact fun c hc => hc
  | some pr =>
    obtain ⟨a, b⟩ := pr
    obtain ⟨h1, -⟩ := splitAtFirst_eq_some '#' s _ _ hsp
    intro c hc
    rw [h1]
    exact List.mem_append_left _ hc

theorem splitFragment_fst_no_hash (s : Str) : '#' ∉ (splitFragment s).1 := by
  unfold splitFragment
  cases hsp : splitAtFirst '#' s with
  | none => exact (splitAtFirst_eq_none '#' s).mp hsp
  | some pr =>
    obtain ⟨a, b⟩ := pr
    exact (splitAtFirst_eq_some '#' s _ _ hsp).2

theorem splitQuery_fst_sub (s : Str) : ∀ c ∈ (splitQuery s).1, c ∈ s := by
  unfold splitQuery
  cases hsp : splitAtFirst '?' s with
  | none => exact fun c hc => hc
  | some pr =>
    obtain ⟨a, b⟩ := pr
    obtain ⟨h1, -⟩ := splitAtFirst_eq_some '?' s _ _ hsp
    intro c hc
    rw [h1]
    exact List.mem_append_left _ hc

theorem splitQuery_fst_no_q (s : Str) : '?' ∉ (splitQuery s).1 := by
  unfold splitQuery
  cases hsp : splitAtFirst '?' s with
  | none => exact (splitAtFirst_eq_none '?' s).mp hsp
  | some pr =>
    obtain ⟨a, b⟩ := pr
    exact (splitAtFirst_eq_some '?' s _ _ hsp).2

theorem splitAtFirst_cons_head (c x : Char) (xs : Str) (h : x ≠ c) :
    splitAtFirst c (x :: xs) = (splitAtFirst c xs).map (fun p => (x :: p.1, p.2)) := by
  rw [splitAtFirst, if_neg h]

theorem splitFragment_fst_head (x : Char) (xs : Str) (h : x ≠ '#') :
    ∃ t, (splitFragment (x :: xs)).1 = x :: t := by
  unfold splitFragment
  rw [splitAtFirst_cons_head _ _ _ h]
  cases splitAtFirst '#' xs with
  | none => exact ⟨xs, rfl⟩
  | some p => exact ⟨p.1, rfl⟩

theorem splitQuery_fst_head (x : Char) (xs : Str) (h : x ≠ '?') :
    ∃ t, (splitQuery (x :: xs)).1 = x :: t := by
  unfold splitQuery
  rw [splitAtFirst_cons_head _ _ _ h]
  cases splitAtFirst '?' xs with
  | none => exact ⟨xs, rfl⟩
  | some p => exact ⟨p.1, rfl⟩

theorem splitFragment_hash_head (xs : Str) : (splitFragment ('#' :: xs)).1 = [] := by
  unfold splitFragment
  rw [splitAtFirst, if_pos rfl]

theorem splitQuery_q_head (xs : Str) : (splitQuery ('?' :: xs)).1 = [] := by
  unfold splitQuery
  rw [splitAtFirst, if_pos rfl]

theorem netlocDelim_cases (d : Char) (h : netlocDelim d = true) :
    d = '/' ∨ d = '?' ∨ d = '#' := by
  unfold netlocDelim at h
  rw [Bool.or_eq_true, Bool.or_eq_true] at h
  rcases h with h | h
  · rcases h with h | h
    · left; exact of_decide_eq_true h
    · right; left; exact of_decide_eq_true h
  · right; right; exact of_decide_eq_true h

theorem urlparse_path_shape (l : Str) (hnet : (urlparseChars l).netloc ≠ [])
    (hsemi : ';' ∉ l) :
    (urlparseChars l).path = [] ∨ ∃ t, (urlparseChars l).path = '/' :: t := by
  rw [urlparse_path_def]
  rw [urlparse_netloc_def] at hnet
  have hsub : ∀ c ∈ (splitQuery (splitFragment
      (splitNetloc (splitScheme l).2).2).1).1, c ∈ l := by
    intro c hc
    exact splitScheme_snd_sub l c (splitNetloc_snd_sub _ c
      (splitFragment_fst_sub _ c (splitQuery_fst_sub _ c hc)))
  rw [splitParamsIf_not_mem _ _ (fun hm => hsemi (hsub _ hm))]
  rcases splitNetloc_snd_shape _ hnet with h2 | ⟨d, t, h2, hd⟩
  · rw [h2]
    left
    rfl
  · rw [h2]
    rcases netlocDelim_cases d hd with rfl | rfl | rfl
    · obtain ⟨t1, ht1⟩ := splitFragment_fst_head '/' t (by decide)
      rw [ht1]
      obtain ⟨t2, ht2⟩ := splitQuery_fst_head '/' t1 (by decide)
      rw [ht2]
      right
      exact ⟨t2, rfl⟩
    · obtain ⟨t1, ht1⟩ := splitFragment_fst_head '?' t (by decide)
      rw [ht1, splitQuery_q_head]
      left
      rfl
    · rw [splitFragment_hash_head]
      left
      rfl

theorem trimSlash_sub (p : Str) : ∀ c ∈ trimSlash p, c ∈ p := by
  unfold trimSlash
  split
  · exact fun c hc => (List.dropLast_sublist p).subset hc
  · exact fun c hc => hc

theorem trimSlash_shape (p : Str) (h : p = [] ∨ ∃ t, p = '/' :: t) :
    trimSlash p = [] ∨ ∃ t, trimSlash p = '/' :: t := by
  rcases h with rfl | ⟨t, rfl⟩
  · left
    simp [trimSlash]
  · unfold trimSlash
    split
    · rename_i hcond
      cases t with
      | nil => simp at hcond
      | cons y t2 =>
        right
        exact ⟨(y :: t2).dropLast, by rw [List.dropLast_cons₂]⟩
    · right
      exact ⟨t, rfl⟩

theorem isAlpha_toNat (c : Char) : c.isAlpha = true ↔
    (65 ≤ c.toNat ∧ c.toNat ≤ 90) ∨ (97 ≤ c.toNat ∧ c.toNat ≤ 122) := by
  simp [Char.isAlpha, Char.isUpper, Char.isLower, Char.le_def, Char.toNat]
  constructor
  · rintro (⟨h1, h2⟩ | ⟨h1, h2⟩)
    · left; exact ⟨h1, h2⟩
    · right; exact ⟨h1, h2⟩
  · rintro (⟨h1, h2⟩ | ⟨h1, h2⟩)
    · left; exact ⟨h1, h2⟩
    · right; exact ⟨h1, h2⟩

theorem isAlpha_toLower (c : Char) (h : c.isAlpha = true) : c.toLower.isAlpha = true := by
  rcases (isAlpha_toNat c).mp h with h1 | h1
  · have hl : c.toLower = Char.ofNat (c.toNat + 32) := by
      rw [Char.toLower, if_pos h1]
    rw [isAlpha_toNat, hl, ofNat_toNat_letter _ (by omega) (by omega)]
    right
    omega
  · rw [toLower_fix c (by omega)]
    exact h

theorem schemeCharB_toLower (c : Char) (h : schemeCharB c = true) :
    schemeCharB c.toLower = true := by
  unfold schemeCharB at h ⊢
  rw [Bool.or_eq_true, Bool.or_eq_true, Bool.or_eq_true, Bool.or_eq_true] at h
  rcases h with h1 | h1
  · rcases h1 with h2 | h2
    · rcases h2 with h3 | h3
      · rcases h3 with h4 | h4
        · simp [isAlpha_toLower c h4]
        · have hd := (by simpa [Char.isDigit, Char.le_def, Char.toNat] using h4 :
            48 ≤ c.toNat ∧ c.toNat ≤ 57)
          rw [toLower_fix c (by omega)]
          simp only [h4]
          simp
      · have : c = '+' := of_decide_eq_true h3
        subst this
        decide
    · have : c = '-' := of_decide_eq_true h2
      subst this
      decide
  · have : c = '.' := of_decide_eq_true h1
    subst this
    decide

theorem urlparseE_ok_val (l : Str) (h : (urlparseE l).isOk = true) :
    urlparseE l = .ok (urlparseChars (urlsplitClean l)) := by
  unfold urlparseE at h ⊢
  split at h
  · simp [Except.isOk, Except.toBool] at h
  · rename_i hcond
    rw [if_neg hcond]

/-- On URLs that start with a non-stripped character and contain none of
the removed or bracket characters, the fallible parse sanitizes nothing
and succeeds. -/
theorem urlparseE_ok (l : Str)
    (hstart : ∃ c cs, l = c :: cs ∧ whatwgC0OrSpace c = false)
    (ht : '\t' ∉ l) (hr : '\r' ∉ l) (hnl : '\n' ∉ l)
    (hb1 : '[' ∉ l) (hb2 : ']' ∉ l) :
    urlparseE l = .ok (urlparseChars l) := by
  have hclean : urlsplitClean l = l := by
    unfold urlsplitClean
    obtain ⟨c, cs, hl, hc⟩ := hstart
    rw [hl, List.dropWhile_cons_of_neg (by simp [hc]), ← hl]
    apply List.filter_eq_self.mpr
    intro a ha
    have h1 : a ≠ '\t' := fun he => ht (he ▸ ha)
    have h2 : a ≠ '\r' := fun he => hr (he ▸ ha)
    have h3 : a ≠ '\n' := fun he => hnl (he ▸ ha)
    simp [h1, h2, h3]
  have hnb1 : '[' ∉ (splitNetloc (splitScheme l).2).1 :=
    fun hm => hb1 (splitScheme_snd_sub l _ ((splitNetloc_fst_facts _ _ hm).2))
  have hnb2 : ']' ∉ (splitNetloc (splitScheme l).2).1 :=
    fun hm => hb2 (splitScheme_snd_sub l _ ((splitNetloc_fst_facts _ _ hm).2))
  unfold urlparseE
  rw [hclean, if_neg]
  unfold invalidIpv6Netloc
  simp [hnb1, hnb2]

theorem normalizeUrlChars_eq_ok (u : Str) (P : UrlParts)
    (h : urlparseE (u.map Char.toLower) = .ok P) :
    normalizeUrlChars u = urlunparseChars
      { scheme := P.scheme, netloc := P.netloc, path := trimSlash P.path,
        params := P.params, query := normQueryChars P.query, fragment := [] } := by
  unfold normalizeUrlChars
  rw [h]

theorem schemeCharB_not_unsafe (c : Char) (h : schemeCharB c = true) :
    c ≠ '\t' ∧ c ≠ '\r' ∧ c ≠ '\n' ∧ c ≠ '[' ∧ c ≠ ']' := by
  refine ⟨?_, ?_, ?_, ?_, ?_⟩ <;> (rintro rfl; revert h; decide)

theorem alwaysSafe_not_unsafe (c : Char) (h : alwaysSafeChar c = true) :
    c ≠ '\t' ∧ c ≠ '\r' ∧ c ≠ '\n' ∧ c ≠ '[' ∧ c ≠ ']' := by
  refine ⟨?_, ?_, ?_, ?_, ?_⟩ <;> (rintro rfl; revert h; decide)

theorem head_shape_of_append (s X : Str) (c : Char) (cs : Str) (h : s = c :: cs)
    (hc : whatwgC0OrSpace c = false) :
    ∃ d ds, s ++ X = d :: ds ∧ whatwgC0OrSpace d = false :=
  ⟨c, cs ++ X, by rw [h, List.cons_append], hc⟩

/-! ## C9: the class of URLs on which normalization is idempotent -/

/-- A URL (as characters) that `_normalize_url` maps to a fixed point of
itself: no fragment or params anywhere, none of the characters `urlsplit`
deletes and no brackets (so the parse succeeds without sanitizing), an
absolute `scheme://host` form, and query pairs whose decoded names and
values consist of lowercase never-quoted characters, with no blank
values, and whose path does not end in a double slash. -/
def goodUrlChars (u : Str) : Bool :=
  !decide ('#' ∈ u.map Char.toLower) &&
  !decide (';' ∈ u.map Char.toLower) &&
  !decide ('\t' ∈ u.map Char.toLower) &&
  !decide ('\r' ∈ u.map Char.toLower) &&
  !decide ('\n' ∈ u.map Char.toLower) &&
  !decide ('[' ∈ u.map Char.toLower) &&
  !decide (']' ∈ u.map Char.toLower) &&
  decide ((urlparseChars (u.map Char.toLower)).scheme ≠ []) &&
  decide ((urlparseChars (u.map Char.toLower)).netloc ≠ []) &&
  decide (trimSlash (trimSlash (urlparseChars (u.map Char.toLower)).path) =
    trimSlash (urlparseChars (u.map Char.toLower)).path) &&
  (parseQsl (urlparseChars (u.map Char.toLower)).query).all (fun kv =>
    kv.1.all goodTokenChar && kv.2.all goodTokenChar && !kv.2.isEmpty)

/-- `goodUrlChars` on Lean strings. -/
def goodUrl (url : String) : Bool :=
  goodUrlChars url.toList

/-- The components that `_normalize_url` depends on when the parse
succeeds: scheme, netloc, trailing-slash-trimmed path and params of the
sanitized lowercased URL, and the rebuilt (tracking-filtered, sorted,
re-encoded) query. -/
def normComponents (url : String) : Str × Str × Str × Str × Str :=
  ((urlparseChars (urlsplitClean (url.toList.map Char.toLower))).scheme,
   (urlparseChars (urlsplitClean (url.toList.map Char.toLower))).netloc,
   trimSlash (urlparseChars (urlsplitClean (url.toList.map Char.toLower))).path,
   (urlparseChars (urlsplitClean (url.toList.map Char.toLower))).params,
   normQueryChars (urlparseChars (urlsplitClean (url.toList.map Char.toLower))).query)

/-- Whether `urlparse` succeeds (no `ValueError`) on the lowercased URL,
i.e. whether `_normalize_url` takes its normal path rather than the
`except` fallback. -/
def urlparseOk (url : String) : Bool :=
  (urlparseE (url.toList.map Char.toLower)).isOk

theorem normQueryChars_nil : normQueryChars [] = [] := by
  unfold normQueryChars
  simp

/-- The keys of the dict built by `parse_qs` are distinct. -/
theorem appendAtKey_fst (k : Str) (v : Str) (d : List (Str × List Str)) :
    (appendAtKey k v d).map Prod.fst =
      if k ∈ d.map Prod.fst then d.map Prod.fst else d.map Prod.fst ++ [k] := by
  induction d with
  | nil => simp [appendAtKey]
  | cons kv rest ih =>
    obtain ⟨k1, vs⟩ := kv
    by_cases he : k1 = k
    · subst he
      rw [appendAtKey, if_pos rfl]
      simp
    · rw [appendAtKey, if_neg he]
      simp only [List.map_cons]
      rw [ih]
      by_cases hm : k ∈ rest.map Prod.fst
      · rw [if_pos hm, if_pos (List.mem_cons_of_mem _ hm)]
      · rw [if_neg hm, if_neg ?_, List.cons_append]
        intro hmem
        rcases List.mem_cons.mp hmem with h1 | h1
        · exact he h1.symm
        · exact hm h1

theorem appendAtKey_nodup (k : Str) (v : Str) (d : List (Str × List Str))
    (h : (d.map Prod.fst).Nodup) : ((appendAtKey k v d).map Prod.fst).Nodup := by
  rw [appendAtKey_fst]
  split
  · exact h
  · rename_i hm
    simp [List.nodup_append, h, hm]

theorem foldl_appendAtKey_nodup (l : List (Str × Str)) :
    ∀ acc : List (Str × List Str), (acc.map Prod.fst).Nodup →
    ((l.foldl (fun d kv => appendAtKey kv.1 kv.2 d) acc).map Prod.fst).Nodup := by
  induction l with
  | nil => exact fun acc h => h
  | cons kv rest ih =>
    intro acc h
    exact ih _ (appendAtKey_nodup kv.1 kv.2 acc h)

theorem parseQs_keys_nodup (q : Str) : ((parseQs q).map Prod.fst).Nodup := by
  unfold parseQs
  exact foldl_appendAtKey_nodup _ [] (by simp)

/-- Invariant of the `parse_qs` dict-building fold: every stored value list
is nonempty and consists of values that `parse_qsl` produced for that key. -/
def QsInv (q : Str) (d : List (Str × List Str)) : Prop :=
  ∀ kv ∈ d, kv.2 ≠ [] ∧ ∀ v ∈ kv.2, (kv.1, v) ∈ parseQsl q

theorem appendAtKey_inv (q : Str) (k : Str) (v : Str) (d : List (Str × List Str))
    (hd : QsInv q d) (hkv : (k, v) ∈ parseQsl q) : QsInv q (appendAtKey k v d) := by
  induction d with
  | nil =>
    intro kv hkv2
    simp only [appendAtKey, List.mem_singleton] at hkv2
    subst hkv2
    refine ⟨by simp, ?_⟩
    intro v2 hv2
    rw [List.mem_singleton] at hv2
    subst hv2
    exact hkv
  | cons kv1 rest ih =>
    obtain ⟨k1, vs⟩ := kv1
    by_cases he : k1 = k
    · subst he
      rw [appendAtKey, if_pos rfl]
      intro kv hkv2
      rcases List.mem_cons.mp hkv2 with rfl | hm
      · have h1 := hd (k1, vs) (by simp)
        refine ⟨by simp, ?_⟩
        intro v2 hv2
        rcases List.mem_append.mp hv2 with hv2 | hv2
        · exact h1.2 v2 hv2
        · rw [List.mem_singleton] at hv2
          subst hv2
          exact hkv
      · exact hd kv (List.mem_cons_of_mem _ hm)
    · rw [appendAtKey, if_neg he]
      intro kv hkv2
      rcases List.mem_cons.mp hkv2 with rfl | hm
      · exact hd (k1, vs) (by simp)
      · exact ih (fun x hx => hd x (List.mem_cons_of_mem _ hx)) kv hm

theorem foldl_appendAtKey_inv (q : Str) (l : List (Str × Str)) :
    ∀ acc : List (Str × List Str), (∀ kv ∈ l, kv ∈ parseQsl q) → QsInv q acc →
    QsInv q (l.foldl (fun d kv => appendAtKey kv.1 kv.2 d) acc) := by
  induction l with
  | nil => exact fun acc _ h => h
  | cons kv rest ih =>
    intro acc hl hacc
    exact ih _ (fun x hx => hl x (List.mem_cons_of_mem _ hx))
      (appendAtKey_inv q kv.1 kv.2 acc hacc (hl kv (by simp)))

theorem parseQs_inv (q : Str) : QsInv q (parseQs q) := by
  unfold parseQs
  exact foldl_appendAtKey_inv q _ [] (fun kv hkv => hkv) (by intro kv h; simp at h)

/-- `_normalize_url` factors through the parse of an already-lowercase URL. -/
theorem normalizeUrlChars_of_parse (x S n pa prm q fr : Str)
    (hlow : x.map Char.toLower = x)
    (hok : urlparseE x = .ok (urlparseChars x))
    (hp : urlparseChars x = ⟨S, n, pa, prm, q, fr⟩) :
    normalizeUrlChars x =
      urlunparseChars ⟨S, n, trimSlash pa, prm, normQueryChars q, []⟩ := by
  unfold normalizeUrlChars
  rw [hlow, hok, hp]

/-- On good URLs, `_normalize_url` is idempotent: one normalization pass
produces a URL that a second pass reproduces exactly. -/
theorem normalizeUrlChars_good_fix (u : Str) (h : goodUrlChars u = true) :
    normalizeUrlChars (normalizeUrlChars u) = normalizeUrlChars u := by
  rw [goodUrlChars, Bool.and_eq_true, Bool.and_eq_true, Bool.and_eq_true,
    Bool.and_eq_true, Bool.and_eq_true, Bool.and_eq_true, Bool.and_eq_true,
    Bool.and_eq_true, Bool.and_eq_true, Bool.and_eq_true] at h
  obtain ⟨⟨⟨⟨⟨⟨⟨⟨⟨⟨g1, g2⟩, gt⟩, gr⟩, gn⟩, gb1⟩, gb2⟩, g3⟩, g4⟩, g6⟩, g5⟩ := h
  rw [Bool.not_eq_true', decide_eq_false_iff_not] at g1 g2 gt gr gn gb1 gb2
  rw [decide_eq_true_eq] at g3 g4 g6
  rw [List.all_eq_true] at g5
  have g5' : ∀ kv ∈ parseQsl (urlparseChars (u.map Char.toLower)).query,
      (∀ c ∈ kv.1, goodTokenChar c = true) ∧ (∀ c ∈ kv.2, goodTokenChar c = true) ∧
        kv.2 ≠ [] := by
    intro kv hkv
    have h2 := g5 kv hkv
    rw [Bool.and_eq_true, Bool.and_eq_true, List.all_eq_true, List.all_eq_true,
      Bool.not_eq_true'] at h2
    refine ⟨h2.1.1, h2.1.2, ?_⟩
    intro he
    rw [he] at h2
    simp at h2
  obtain ⟨c0, cs0, rest0, hld, hca, hsch⟩ :=
    splitScheme_dissect (u.map Char.toLower) (by rw [← urlparse_scheme_def]; exact g3)
  have hscheme : (urlparseChars (u.map Char.toLower)).scheme =
      (c0 :: cs0).map Char.toLower := by
    rw [urlparse_scheme_def, hld,
      splitScheme_append (c0 :: cs0) rest0 ⟨c0, cs0, rfl, hca⟩ hsch]
  have hwlow : whatwgC0OrSpace c0 = false := by
    have hrange := (isAlpha_toNat c0).mp hca
    unfold whatwgC0OrSpace
    rw [decide_eq_false_iff_not]
    omega
  have hok1 : urlparseE (u.map Char.toLower) = .ok (urlparseChars (u.map Char.toLower)) := by
    refine urlparseE_ok _ ⟨c0, cs0 ++ ':' :: rest0, ?_, hwlow⟩ gt gr gn gb1 gb2
    rw [hld, List.cons_append]
  have hs_shape : ∃ c cs, (urlparseChars (u.map Char.toLower)).scheme = c :: cs ∧
      c.isAlpha = true := by
    rw [hscheme]
    exact ⟨c0.toLower, cs0.map Char.toLower, by simp, isAlpha_toLower c0 hca⟩
  have hs_sch : (urlparseChars (u.map Char.toLower)).scheme.all schemeCharB = true := by
    rw [hscheme, List.all_eq_true]
    intro x hx
    obtain ⟨y, hy, rfl⟩ := List.mem_map.mp hx
    rw [List.all_eq_true] at hsch
    exact schemeCharB_toLower y (hsch y hy)
  have hs_low : (urlparseChars (u.map Char.toLower)).scheme.map Char.toLower =
      (urlparseChars (u.map Char.toLower)).scheme := by
    rw [hscheme, List.map_map]
    exact List.map_congr_left (fun x _ => toLower_idem x)
  have hnfacts : ∀ c ∈ (urlparseChars (u.map Char.toLower)).netloc,
      netlocDelim c = false ∧ c ∈ u.map Char.toLower := by
    intro c hc
    rw [urlparse_netloc_def] at hc
    obtain ⟨hdel, hmem⟩ := splitNetloc_fst_facts _ c hc
    exact ⟨hdel, splitScheme_snd_sub _ c hmem⟩
  have hn_delim : ∀ c ∈ (urlparseChars (u.map Char.toLower)).netloc,
      netlocDelim c = false := fun c hc => (hnfacts c hc).1
  have hn_low : ∀ c ∈ (urlparseChars (u.map Char.toLower)).netloc, c.toLower = c :=
    fun c hc => mem_map_toLower_fix u c (hnfacts c hc).2
  have hqu1sub : ∀ c ∈ (splitQuery (splitFragment (splitNetloc
      (splitScheme (u.map Char.toLower)).2).2).1).1, c ∈ u.map Char.toLower :=
    fun c hc => splitScheme_snd_sub _ c (splitNetloc_snd_sub _ c
      (splitFragment_fst_sub _ c (splitQuery_fst_sub _ c hc)))
  have hpath0 : (urlparseChars (u.map Char.toLower)).path = (splitQuery (splitFragment
      (splitNetloc (splitScheme (u.map Char.toLower)).2).2).1).1 := by
    rw [urlparse_path_def, splitParamsIf_not_mem _ _ (fun hm => g2 (hqu1sub _ hm))]
  have hparams : (urlparseChars (u.map Char.toLower)).params = [] := by
    rw [urlparse_params_def, splitParamsIf_not_mem _ _ (fun hm => g2 (hqu1sub _ hm))]
  have hpathsub : ∀ c ∈ (urlparseChars (u.map Char.toLower)).path,
      c ∈ u.map Char.toLower := by
    rw [hpath0]
    exact hqu1sub
  have hpath_noq : '?' ∉ (urlparseChars (u.map Char.toLower)).path := by
    rw [hpath0]
    exact splitQuery_fst_no_q _
  have hpath_shape := urlparse_path_shape (u.map Char.toLower) g4 g2
  have hpa_shape := trimSlash_shape _ hpath_shape
  have hpa_sub : ∀ c ∈ trimSlash (urlparseChars (u.map Char.toLower)).path,
      c ∈ u.map Char.toLower := fun c hc => hpathsub c (trimSlash_sub _ c hc)
  have hpa_noq : '?' ∉ trimSlash (urlparseChars (u.map Char.toLower)).path :=
    fun hm => hpath_noq (trimSlash_sub _ _ hm)
  have hpa_noh : '#' ∉ trimSlash (urlparseChars (u.map Char.toLower)).path :=
    fun hm => g1 (hpa_sub _ hm)
  have hpa_nos : ';' ∉ trimSlash (urlparseChars (u.map Char.toLower)).path :=
    fun hm => g2 (hpa_sub _ hm)
  have hpa_low : ∀ c ∈ trimSlash (urlparseChars (u.map Char.toLower)).path,
      c.toLower = c := fun c hc => mem_map_toLower_fix u c (hpa_sub c hc)
  have hD_nodup := parseQs_keys_nodup (urlparseChars (u.map Char.toLower)).query
  have hD_inv := parseQs_inv (urlparseChars (u.map Char.toLower)).query
  have hF_sub : List.Sublist
      (filterTracking (parseQs (urlparseChars (u.map Char.toLower)).query))
      (parseQs (urlparseChars (u.map Char.toLower)).query) := by
    unfold filterTracking
    exact List.filter_sublist _
  have hperm : List.Perm
      (sortQueryPairs (filterTracking (parseQs (urlparseChars (u.map Char.toLower)).query)))
      (filterTracking (parseQs (urlparseChars (u.map Char.toLower)).query)) := by
    unfold sortQueryPairs
    exact List.perm_insertionSort _ _
  have hPS_nodup : ((sortQueryPairs (filterTracking (parseQs
      (urlparseChars (u.map Char.toLower)).query))).map Prod.fst).Nodup :=
    ((hperm.map Prod.fst).nodup_iff).mpr (hD_nodup.sublist (hF_sub.map Prod.fst))
  have hPS_sorted : List.Sorted pairLe (sortQueryPairs (filterTracking (parseQs
      (urlparseChars (u.map Char.toLower)).query))) := by
    unfold sortQueryPairs
    exact List.sorted_insertionSort pairLe _
  have hPS_track : ∀ kv ∈ sortQueryPairs (filterTracking (parseQs
      (urlparseChars (u.map Char.toLower)).query)), kv.1 ∉ trackingParams := by
    intro kv hkv htr
    have h2 := hperm.subset hkv
    unfold filterTracking at h2
    have h3 := (List.mem_filter.mp h2).2
    simp [htr] at h3
  have hPS_memD : ∀ kv ∈ sortQueryPairs (filterTracking (parseQs
      (urlparseChars (u.map Char.toLower)).query)),
      kv ∈ parseQs (urlparseChars (u.map Char.toLower)).query :=
    fun kv hkv => hF_sub.subset (hperm.subset hkv)
  have hPS_tok : ∀ kv ∈ sortQueryPairs (filterTracking (parseQs
      (urlparseChars (u.map Char.toLower)).query)),
      (∀ c ∈ kv.1, goodTokenChar c = true) ∧ kv.2 ≠ [] ∧
        ∀ v ∈ kv.2, v ≠ [] ∧ ∀ c ∈ v, goodTokenChar c = true := by
    intro kv hkv
    have hDkv := hD_inv kv (hPS_memD kv hkv)
    refine ⟨?_, hDkv.1, ?_⟩
    · obtain ⟨v, hv⟩ := List.exists_mem_of_ne_nil kv.2 hDkv.1
      exact (g5' _ (hDkv.2 v hv)).1
    · intro v hv
      have hg := g5' _ (hDkv.2 v hv)
      exact ⟨hg.2.2, hg.2.1⟩
  have hPS_safe : ∀ kv ∈ sortQueryPairs (filterTracking (parseQs
      (urlparseChars (u.map Char.toLower)).query)),
      (∀ c ∈ kv.1, alwaysSafeChar c = true) ∧ kv.2 ≠ [] ∧
        ∀ v ∈ kv.2, v ≠ [] ∧ ∀ c ∈ v, alwaysSafeChar c = true := by
    intro kv hkv
    obtain ⟨h1, h2, h3⟩ := hPS_tok kv hkv
    exact ⟨fun c hc => (goodTokenChar_safe c (h1 c hc)).1, h2,
      fun v hv => ⟨(h3 v hv).1, fun c hc => (goodTokenChar_safe c ((h3 v hv).2 c hc)).1⟩⟩
  have hQfix : normQueryChars (normQueryChars
      (urlparseChars (u.map Char.toLower)).query) =
      normQueryChars (urlparseChars (u.map Char.toLower)).query := by
    by_cases hq0 : (urlparseChars (u.map Char.toLower)).query = []
    · rw [hq0, normQueryChars_nil, normQueryChars_nil]
    · have hq1 : normQueryChars (urlparseChars (u.map Char.toLower)).query =
          joinAmp (encodePairs (sortQueryPairs (filterTracking (parseQs
            (urlparseChars (u.map Char.toLower)).query)))) := by
        unfold normQueryChars
        rw [if_pos hq0]
      rw [hq1]
      exact normQuery_fix _ hPS_nodup hPS_sorted hPS_track hPS_safe
  have hQchars : ∀ c ∈ normQueryChars (urlparseChars (u.map Char.toLower)).query,
      goodTokenChar c = true ∨ c = '=' ∨ c = '&' := by
    by_cases hq0 : (urlparseChars (u.map Char.toLower)).query = []
    · rw [hq0, normQueryChars_nil]
      intro c hc
      simp at hc
    · have hq1 : normQueryChars (urlparseChars (u.map Char.toLower)).query =
          joinAmp (encodePairs (sortQueryPairs (filterTracking (parseQs
            (urlparseChars (u.map Char.toLower)).query)))) := by
        unfold normQueryChars
        rw [if_pos hq0]
      rw [hq1]
      exact normQuery_chars _ (fun kv hkv => ⟨(hPS_tok kv hkv).1,
        fun v hv => ((hPS_tok kv hkv).2.2 v hv).2⟩)
  have hQ_low : ∀ c ∈ normQueryChars (urlparseChars (u.map Char.toLower)).query,
      c.toLower = c := by
    intro c hc
    rcases hQchars c hc with hg | rfl | rfl
    · exact (goodTokenChar_safe c hg).2
    · decide
    · decide
  have hQ_noh : '#' ∉ normQueryChars (urlparseChars (u.map Char.toLower)).query := by
    intro hm
    rcases hQchars _ hm with hg | he | he
    · exact absurd hg (by decide)
    · exact absurd he (by decide)
    · exact absurd he (by decide)
  have hshape1 := urlunparse_shape (urlparseChars (u.map Char.toLower)).scheme
    (urlparseChars (u.map Char.toLower)).netloc
    (trimSlash (urlparseChars (u.map Char.toLower)).path)
    (normQueryChars (urlparseChars (u.map Char.toLower)).query) g3 g4 hpa_shape
  have hstep1 : normalizeUrlChars u = (urlparseChars (u.map Char.toLower)).scheme ++
      ':' :: '/' :: '/' :: ((urlparseChars (u.map Char.toLower)).netloc ++
        (trimSlash (urlparseChars (u.map Char.toLower)).path ++
          (if normQueryChars (urlparseChars (u.map Char.toLower)).query = [] then []
           else '?' :: normQueryChars (urlparseChars (u.map Char.toLower)).query))) := by
    rw [normalizeUrlChars_eq_ok u (urlparseChars (u.map Char.toLower)) hok1, hparams]
    exact hshape1
  have hlowN : ((urlparseChars (u.map Char.toLower)).scheme ++
      ':' :: '/' :: '/' :: ((urlparseChars (u.map Char.toLower)).netloc ++
        (trimSlash (urlparseChars (u.map Char.toLower)).path ++
          (if normQueryChars (urlparseChars (u.map Char.toLower)).query = [] then []
           else '?' :: normQueryChars (urlparseChars (u.map Char.toLower)).query)))).map
        Char.toLower =
      (urlparseChars (u.map Char.toLower)).scheme ++
      ':' :: '/' :: '/' :: ((urlparseChars (u.map Char.toLower)).netloc ++
        (trimSlash (urlparseChars (u.map Char.toLower)).path ++
          (if normQueryChars (urlparseChars (u.map Char.toLower)).query = [] then []
           else '?' :: normQueryChars (urlparseChars (u.map Char.toLower)).query))) := by
    apply map_toLower_fix
    intro c hc
    rw [List.mem_append] at hc
    rcases hc with hc | hc
    · rw [hscheme] at hc
      exact mem_map_toLower_fix _ c hc
    · rcases List.mem_cons.mp hc with rfl | hc
      · decide
      · rcases List.mem_cons.mp hc with rfl | hc
        · decide
        · rcases List.mem_cons.mp hc with rfl | hc
          · decide
          · rw [List.mem_append] at hc
            rcases hc with hc | hc
            · exact hn_low c hc
            · rw [List.mem_append] at hc
              rcases hc with hc | hc
              · exact hpa_low c hc
              · by_cases hqe : normQueryChars
                    (urlparseChars (u.map Char.toLower)).query = []
                · rw [if_pos hqe] at hc
                  simp at hc
                · rw [if_neg hqe] at hc
                  rcases List.mem_cons.mp hc with rfl | hc
                  · decide
                  · exact hQ_low c hc
  have hQ_unsafe : ∀ c ∈ normQueryChars (urlparseChars (u.map Char.toLower)).query,
      c ≠ '\t' ∧ c ≠ '\r' ∧ c ≠ '\n' ∧ c ≠ '[' ∧ c ≠ ']' := by
    intro c hc
    rcases hQchars c hc with hg | rfl | rfl
    · exact alwaysSafe_not_unsafe c (goodTokenChar_safe c hg).1
    · refine ⟨?_, ?_, ?_, ?_, ?_⟩ <;> decide
    · refine ⟨?_, ?_, ?_, ?_, ?_⟩ <;> decide
  have hNspec : ∀ c ∈ (urlparseChars (u.map Char.toLower)).scheme ++
      ':' :: '/' :: '/' :: ((urlparseChars (u.map Char.toLower)).netloc ++
        (trimSlash (urlparseChars (u.map Char.toLower)).path ++
          (if normQueryChars (urlparseChars (u.map Char.toLower)).query = [] then []
           else '?' :: normQueryChars (urlparseChars (u.map Char.toLower)).query))),
      c ≠ '\t' ∧ c ≠ '\r' ∧ c ≠ '\n' ∧ c ≠ '[' ∧ c ≠ ']' := by
    intro c hc
    rw [List.mem_append] at hc
    rcases hc with hc | hc
    · exact schemeCharB_not_unsafe c (List.all_eq_true.mp hs_sch c hc)
    · rcases List.mem_cons.mp hc with rfl | hc
      · refine ⟨?_, ?_, ?_, ?_, ?_⟩ <;> decide
      · rcases List.mem_cons.mp hc with rfl | hc
        · refine ⟨?_, ?_, ?_, ?_, ?_⟩ <;> decide
        · rcases List.mem_cons.mp hc with rfl | hc
          · refine ⟨?_, ?_, ?_, ?_, ?_⟩ <;> decide
          · rw [List.mem_append] at hc
            rcases hc with hc | hc
            · have hmem := (hnfacts c hc).2
              exact ⟨fun he => gt (he ▸ hmem), fun he => gr (he ▸ hmem),
                fun he => gn (he ▸ hmem), fun he => gb1 (he ▸ hmem),
                fun he => gb2 (he ▸ hmem)⟩
            · rw [List.mem_append] at hc
              rcases hc with hc | hc
              · have hmem := hpa_sub c hc
                exact ⟨fun he => gt (he ▸ hmem), fun he => gr (he ▸ hmem),
                  fun he => gn (he ▸ hmem), fun he => gb1 (he ▸ hmem),
                  fun he => gb2 (he ▸ hmem)⟩
              · by_cases hqe : normQueryChars
                    (urlparseChars (u.map Char.toLower)).query = []
                · rw [if_pos hqe] at hc
                  simp at hc
                · rw [if_neg hqe] at hc
                  rcases List.mem_cons.mp hc with rfl | hc
                  · refine ⟨?_, ?_, ?_, ?_, ?_⟩ <;> decide
                  · exact hQ_unsafe c hc
  have hwlow2 : whatwgC0OrSpace c0.toLower = false := by
    have hrange := (isAlpha_toNat c0.toLower).mp (isAlpha_toLower c0 hca)
    unfold whatwgC0OrSpace
    rw [decide_eq_false_iff_not]
    omega
  have hstartN := head_shape_of_append (urlparseChars (u.map Char.toLower)).scheme
    (':' :: '/' :: '/' :: ((urlparseChars (u.map Char.toLower)).netloc ++
      (trimSlash (urlparseChars (u.map Char.toLower)).path ++
        (if normQueryChars (urlparseChars (u.map Char.toLower)).query = [] then []
         else '?' :: normQueryChars (urlparseChars (u.map Char.toLower)).query))))
    c0.toLower (cs0.map Char.toLower) (by rw [hscheme, List.map_cons]) hwlow2
  have hokN := urlparseE_ok _ hstartN
    (fun hm => (hNspec _ hm).1 rfl)
    (fun hm => (hNspec _ hm).2.1 rfl)
    (fun hm => (hNspec _ hm).2.2.1 rfl)
    (fun hm => (hNspec _ hm).2.2.2.1 rfl)
    (fun hm => (hNspec _ hm).2.2.2.2 rfl)
  have hstep2p := urlparse_shape (urlparseChars (u.map Char.toLower)).scheme
    (urlparseChars (u.map Char.toLower)).netloc
    (trimSlash (urlparseChars (u.map Char.toLower)).path)
    (normQueryChars (urlparseChars (u.map Char.toLower)).query)
    hs_shape hs_sch hs_low hn_delim hpa_shape hpa_noq hpa_noh hpa_nos hQ_noh
  have hstep2 := normalizeUrlChars_of_parse _ _ _ _ _ _ _ hlowN hokN hstep2p
  rw [g6, hQfix] at hstep2
  rw [hshape1] at hstep2
  rw [hstep1]
  exact hstep2

/-- C9 (counterexample): `_normalize_url` is not idempotent on every URL,
and its result does not depend only on the claimed components.  A path
ending in a double slash loses one slash per pass (`/p//` → `/p/` →
`/p`); a percent-escape decoding to an uppercase letter is decoded on the
first pass but only lowercased on the second (`?a=%41` → `?a=A` →
`?a=a`); and two URLs with an unbalanced `[` in the netloc agree on every
claimed component, yet `urlparse` raises on them, so the `except`
fallback returns them unchanged — with the tracking parameter and the
trailing slash of the first still in place. -/
theorem normalize_url_not_idempotent_cex :
    normalize_url (normalize_url "http://h.example/p//") ≠
      normalize_url "http://h.example/p//" ∧
    normalize_url (normalize_url "http://h/p?a=%41") ≠
      normalize_url "http://h/p?a=%41" ∧
    normComponents "http://x[a/p/?utm_source=t&k=v" =
      normComponents "http://x[a/p?k=v" ∧
    normalize_url "http://x[a/p/?utm_source=t&k=v" ≠
      normalize_url "http://x[a/p?k=v" :=
  ⟨by decide, by decide, by decide, by decide⟩

/-- C9 (amended): URL normalization is idempotent on good URLs — ASCII
absolute `scheme://host` URLs without fragments, params, brackets or
stripped characters whose query decodes to lowercase never-quoted tokens
with nonblank values and whose path does not end in a double slash; on
URLs whose parse succeeds (no `ValueError`, hence no `except` fallback)
the result depends only on the scheme, netloc, trailing-slash-trimmed
path and params of the sanitized lowercased URL together with the rebuilt
(tracking-filtered, sorted, re-encoded) query; and the two example URLs
normalize to the same string and hence get equal URL hashes. -/
theorem normalize_url_spec :
    (∀ url : String, goodUrl url = true →
      normalize_url (normalize_url url) = normalize_url url) ∧
    (∀ u1 u2 : String, urlparseOk u1 = true → urlparseOk u2 = true →
      normComponents u1 = normComponents u2 →
      normalize_url u1 = normalize_url u2) ∧
    normalize_url "https://d.example/page?utm_campaign=a&id=1" =
      normalize_url "https://d.example/page?id=1&utm_source=b" ∧
    ∀ sha256 : String → String,
      hash_content sha256 (normalize_url "https://d.example/page?utm_campaign=a&id=1") =
        hash_content sha256 (normalize_url "https://d.example/page?id=1&utm_source=b") := by
  refine ⟨?_, ?_, ?_, ?_⟩
  · intro url h
    have h2 := normalizeUrlChars_good_fix url.toList h
    show (normalizeUrlChars (normalizeUrlChars url.toList)).asString =
      (normalizeUrlChars url.toList).asString
    rw [h2]
  · intro u1 u2 ho1 ho2 h
    unfold urlparseOk at ho1 ho2
    have e1 := urlparseE_ok_val _ ho1
    have e2 := urlparseE_ok_val _ ho2
    unfold normComponents at h
    rw [Prod.mk.injEq, Prod.mk.injEq, Prod.mk.injEq, Prod.mk.injEq] at h
    obtain ⟨h1, h2, h3, h4, h5⟩ := h
    show (normalizeUrlChars u1.toList).asString = (normalizeUrlChars u2.toList).asString
    rw [normalizeUrlChars_eq_ok _ _ e1, normalizeUrlChars_eq_ok _ _ e2,
      h1, h2, h3, h4, h5]
  · decide
  · intro sha256
    exact congrArg (hash_content sha256)
      (by decide : normalize_url "https://d.example/page?utm_campaign=a&id=1" =
        normalize_url "https://d.example/page?id=1&utm_source=b")

/-- C9 witness: the first example URL is good and idempotent under
normalization; both example URLs parse without error, share components
and normalize identically. -/
theorem normalize_url_spec_witness :
    goodUrl "https://d.example/page?utm_campaign=a&id=1" = true ∧
    normalize_url (normalize_url "https://d.example/page?utm_campaign=a&id=1") =
      normalize_url "https://d.example/page?utm_campaign=a&id=1" ∧
    urlparseOk "https://d.example/page?utm_campaign=a&id=1" = true ∧
    urlparseOk "https://d.example/page?id=1&utm_source=b" = true ∧
    normComponents "https://d.example/page?utm_campaign=a&id=1" =
      normComponents "https://d.example/page?id=1&utm_source=b" ∧
    normalize_url "https://d.example/page?utm_campaign=a&id=1" =
      normalize_url "https://d.example/page?id=1&utm_source=b" :=
  ⟨by decide, normalize_url_spec.1 _ (by decide), by decide, by decide, by decide,
   normalize_url_spec.2.1 _ _ (by decide) (by decide) (by decide)⟩
